import Mathlib

/-!
# Verification of the cmder command-line framework

A shallow embedding, in Lean 4, of the core of the `cmder` Go library:

* the getopt-style flag parser (`getopt.PosixFlagSet.parse` and the
  identical `flag.FlagSet.parse` of the repository's own `flag` fork),
* flag registration (`flag.FlagSet.Var`),
* the structured map flag value (`getopt.MapVar.Set` / `MapVar.String`,
  which delegate to `encoding/csv`),
* the call-stack builder (`buildCallStack`, `parseArgs`,
  `bindEnvironmentFlags`, `formatEnvvar`),
* the lifecycle executor (`execute`, `command.onInit`, `command.run`,
  `command.onDestroy`).

Go strings are modelled as lists of characters; Go maps as association
lists; the textual `Set` contract of a `flag.Value` instance is modelled
abstractly by an `accepts` predicate together with a chronological log of
the successfully applied texts (two runs producing the same log leave
every deterministic value in the same state).  Loops whose termination
is not structural are given explicit fuel; every wrapper supplies a fuel
bound that the loop can never exhaust, and theorems about loop results
take the computed outcome as a hypothesis, so no proof depends on the
fuel-exhaustion branch.
-/

namespace Cmder

/-- Go strings, modelled as lists of characters (runes). -/
abbrev GoStr := List Char

/-- Embeds a Lean string literal into the Go string model. -/
def gs (s : String) : GoStr := s.data

/-- Model of `strings.CutPrefix(s, p)`: strips `p` from the front of `s`,
returning `none` when `s` does not start with `p`. -/
def cutPfx : GoStr → GoStr → Option GoStr
  | s, [] => some s
  | [], _ :: _ => none
  | c :: s, p :: ps => if c = p then cutPfx s ps else none

/-- Model of `strings.Cut(s, sep)` for a one-character separator: splits
around the first occurrence, returning (before, after, found). -/
def goCut (sep : Char) : GoStr → GoStr × GoStr × Bool
  | [] => ([], [], false)
  | c :: s =>
    if c = sep then ([], s, true)
    else
      let r := goCut sep s
      (c :: r.1, r.2.1, r.2.2)

/-! ## The flag registry

`flag.FlagSet` (both the standard library set wrapped by
`getopt.PosixFlagSet` and the repository's own `flag` fork) keeps a map
from flag name to flag.  Each flag holds a `flag.Value` instance; flag
aliases (`getopt.Alias`) register a second name against the *same* value
instance, so a value instance is identified here by a numeric id shared
between aliases.  A value's textual `Set` either succeeds or fails
depending only on the text, which the `accepts` field models; the
per-instance state is recovered from the log of applied texts. -/

/-- One registered flag: the id of the underlying `flag.Value` instance
and whether that instance reports `IsBoolFlag() == true`. -/
structure FlagDef where
  valueId : Nat
  isBool : Bool
deriving DecidableEq, Repr, Inhabited

/-- The flag registry: the `name → flag` map of a `flag.FlagSet`, plus the
behaviour of each value instance's textual `Set` (`accepts id text` is
true exactly when `Set(text)` on instance `id` returns nil). -/
structure Registry where
  defs : List (GoStr × FlagDef)
  accepts : Nat → GoStr → Bool

/-- `FlagSet.Lookup(name)`. -/
def rLookup (r : Registry) (name : GoStr) : Option FlagDef :=
  (r.defs.find? (fun d => d.1 == name)).map (·.2)

/-- The mutable state of a flag set during parsing: the chronological log
of successful `Set` applications `(value instance id, text)`, the record
of explicitly-set flag names (`FlagSet.Set` bookkeeping), and the
residual arguments (`FlagSet.Args()`). -/
structure PSt where
  valLog : List (Nat × GoStr)
  setNames : List GoStr
  args : List GoStr
deriving DecidableEq, Repr

/-- The flag-set state before any parsing. -/
def pst0 : PSt := ⟨[], [], []⟩

/-- Errors surfaced by the parser and the call-stack builder.  Construct
identity mirrors the distinct `fmt.Errorf` messages of the source. -/
inductive GoErr where
  | errHelp
  | unknownLong (name : GoStr)
  | unknownShort (name : GoStr)
  | missingLong (name : GoStr)
  | missingShort (name : GoStr)
  | setFailed (name value : GoStr)
  | envBindFailed (name envvar : GoStr)
  | fuel
deriving DecidableEq, Repr

/-- `FlagSet.Set(name, value)`: look the flag up, run the value's textual
`Set`, and on success record the name as explicitly set.  On failure the
flag-set state is unchanged (the source returns before mutating). -/
def fsSet (r : Registry) (st : PSt) (name value : GoStr) : PSt × Option GoErr :=
  match rLookup r name with
  | none => (st, some (.unknownLong name))
  | some d =>
    if r.accepts d.valueId value then
      ({ st with
          valLog := st.valLog ++ [(d.valueId, value)],
          setNames := if st.setNames.contains name then st.setNames else st.setNames ++ [name] },
        none)
    else (st, some (.setFailed name value))

/-- `PosixFlagSet.parseLong` / `FlagSet.parseLong`: split the token on the
first `=`, treat a registered boolean flag without an inline value as
`true`, otherwise consume the next argument as the value.  Returns the
updated state, the remaining arguments and an error. -/
def parseLong (r : Registry) (st : PSt) (arg0 : GoStr) (arguments : List GoStr) :
    PSt × List GoStr × Option GoErr :=
  let cut := goCut '=' arg0
  let arg := cut.1
  let inlineVal := cut.2.2
  match rLookup r arg with
  | none =>
    if arg = gs "help" then (st, [], some .errHelp)
    else (st, [], some (.unknownLong arg))
  | some d =>
    if d.isBool then
      let value := if inlineVal then cut.2.1 else gs "true"
      let res := fsSet r st arg value
      match res.2 with
      | some e => (res.1, [], some e)
      | none => (res.1, arguments, none)
    else
      if inlineVal then
        let res := fsSet r st arg cut.2.1
        match res.2 with
        | some e => (res.1, [], some e)
        | none => (res.1, arguments, none)
      else
        match arguments with
        | [] => (st, [], some (.missingLong arg))
        | a :: rest =>
          let res := fsSet r st arg a
          match res.2 with
          | some e => (res.1, [], some e)
          | none => (res.1, rest, none)

/-- `PosixFlagSet.parseShort` / `FlagSet.parseShort`: process a cluster of
short flags character by character; boolean flags are set to `true` and
scanning continues, the first non-boolean flag consumes the rest of the
token as a stuck value (or, when the token is exhausted, the next
argument) and ends the token's scan. -/
def parseShort (r : Registry) : PSt → GoStr → List GoStr → PSt × List GoStr × Option GoErr
  | st, [], arguments => (st, arguments, none)
  | st, c :: short, arguments =>
    match rLookup r [c] with
    | none =>
      if c = 'h' then (st, [], some .errHelp)
      else (st, [], some (.unknownShort [c]))
    | some d =>
      if d.isBool then
        let res := fsSet r st [c] (gs "true")
        match res.2 with
        | some e => (res.1, [], some e)
        | none => parseShort r res.1 short arguments
      else
        if short ≠ [] then
          let res := fsSet r st [c] short
          match res.2 with
          | some e => (res.1, [], some e)
          | none => (res.1, arguments, none)
        else
          match arguments with
          | [] => (st, [], some (.missingShort [c]))
          | a :: rest =>
            let res := fsSet r st [c] a
            match res.2 with
            | some e => (res.1, [], some e)
            | none => (res.1, rest, none)

/-- The loop of `PosixFlagSet.parse` / `FlagSet.parse`, fuelled: a bare
`-` stops parsing with itself first in the residual, a bare `--` stops
parsing and is dropped, `--x` tokens go to `parseLong`, `-x` tokens to
`parseShort`, and any other token stops parsing with everything from it
onward as residual.  Each iteration consumes at least the first
remaining argument, so the fuel `arguments.length + 1` supplied by
`fsParse` is never exhausted. -/
def fsParseAux (r : Registry) : Nat → PSt → List GoStr → PSt × Option GoErr
  | 0, st, _ => (st, some .fuel)
  | _ + 1, st, [] => ({ st with args := [] }, none)
  | fuel + 1, st, arg :: rest =>
    if arg = gs "-" then ({ st with args := arg :: rest }, none)
    else if arg = gs "--" then ({ st with args := rest }, none)
    else
      match cutPfx arg (gs "--") with
      | some long =>
        let res := parseLong r st long rest
        match res.2.2 with
        | some e => (res.1, some e)
        | none => fsParseAux r fuel res.1 res.2.1
      | none =>
        match cutPfx arg (gs "-") with
        | some short =>
          let res := parseShort r st short rest
          match res.2.2 with
          | some e => (res.1, some e)
          | none => fsParseAux r fuel res.1 res.2.1
        | none => ({ st with args := arg :: rest }, none)

/-- `PosixFlagSet.parse(arguments)` / `FlagSet.parse(arguments)`. -/
def fsParse (r : Registry) (st : PSt) (arguments : List GoStr) : PSt × Option GoErr :=
  fsParseAux r (arguments.length + 1) st arguments

/-! ## Claim C3: short-flag clustering -/

/-- An empty registry whose (absent) values accept every text. -/
def emptyReg : Registry := ⟨[], fun _ _ => true⟩

/-- C3: for every flag registry in which flags `a` and `b` are boolean and
flag `c` is non-boolean, parsing `["-abc", "x"]` leaves the registry's
flag values, explicitly-set record, and residual arguments in exactly
the same state as parsing `["-a", "-b", "-c", "x"]`. -/
theorem claim_C3_cluster_equiv (r : Registry) (st : PSt) (da db dc : FlagDef)
    (ha : rLookup r ['a'] = some da) (hab : da.isBool = true)
    (hb : rLookup r ['b'] = some db) (hbb : db.isBool = true)
    (hc : rLookup r ['c'] = some dc) (hcb : dc.isBool = false) :
    fsParse r st [gs "-abc", gs "x"] = fsParse r st [gs "-a", gs "-b", gs "-c", gs "x"] := by
  cases h1 : r.accepts da.valueId ['t', 'r', 'u', 'e'] <;>
    cases h2 : r.accepts db.valueId ['t', 'r', 'u', 'e'] <;>
      cases h3 : r.accepts dc.valueId ['x'] <;>
        simp [fsParse, fsParseAux, parseShort, cutPfx, fsSet, gs,
          ha, hb, hc, hab, hbb, hcb, h1, h2, h3]

/-- A concrete registry with boolean flags `a`, `b` and a non-boolean
flag `c`, whose values accept every text. -/
def c3Reg : Registry :=
  ⟨[(['a'], ⟨1, true⟩), (['b'], ⟨2, true⟩), (['c'], ⟨3, false⟩)], fun _ _ => true⟩

/-- Witness for C3 at a concrete registry. -/
theorem claim_C3_cluster_equiv_witness :
    fsParse c3Reg pst0 [gs "-abc", gs "x"] = fsParse c3Reg pst0 [gs "-a", gs "-b", gs "-c", gs "x"] :=
  claim_C3_cluster_equiv c3Reg pst0 ⟨1, true⟩ ⟨2, true⟩ ⟨3, false⟩
    (by decide) rfl (by decide) rfl (by decide) rfl

/-! ## Claim C4: the terminator and the bare hyphen -/

/-- C4 counterexample: on the argument vector `["--", "--"]` the parser
succeeds and the residual output is `["--"]`, which contains a bare
`--` token — refuting the claim that a bare `--` never appears in the
residual output. -/
theorem claim_C4_counterexample :
    (fsParse emptyReg pst0 [gs "--", gs "--"]).2 = none ∧
    (fsParse emptyReg pst0 [gs "--", gs "--"]).1.args = [gs "--"] ∧
    gs "--" ∈ (fsParse emptyReg pst0 [gs "--", gs "--"]).1.args := by
  decide

/-- C4 amended: when the scanner's current token is a bare `--`, flag
scanning stops unconditionally, that token is dropped, and everything
strictly after it becomes the residual; when the current token is a bare
`-`, it is not consumed as a flag: parsing stops immediately and the
residual is everything from the `-` onward, with the `-` first.  (Tokens
after the stopping point are taken verbatim, so a later `--` or `-` can
still appear inside the residual.) -/
theorem claim_C4_amended :
    (∀ (r : Registry) (st : PSt) (rest : List GoStr),
       fsParse r st (gs "--" :: rest) = ({ st with args := rest }, none)) ∧
    (∀ (r : Registry) (st : PSt) (rest : List GoStr),
       fsParse r st (gs "-" :: rest) = ({ st with args := gs "-" :: rest }, none)) := by
  constructor <;> intro r st rest <;> simp [fsParse, fsParseAux, gs]


/-! ## The lifecycle executor

`execute` walks the built call stack recursively: Initialize of the
current frame (when the command implements `RunnableLifecycle`), then
`Run` for the leaf frame or a recursive descent otherwise, then Destroy.
Any non-nil error returns immediately.  The hook wrappers
(`command.onInit`, `command.run`, `command.onDestroy`) additionally
check `errors.Is(err, ErrShowUsage)`: a hook outcome wrapping the
show-usage sentinel renders usage and calls `os.Exit(2)`.  The embedding
instruments the executor with a trace of hook invocations and models a
process exit as a distinguished outcome. -/

/-- A Go error as seen by the executor: whether
`errors.Is(err, ErrShowUsage)` holds for it, plus an identity tag. -/
structure XErr where
  showUsage : Bool
  tag : Nat
deriving DecidableEq, Repr

/-- Model of `errors.Is(err, ErrShowUsage)` on an optional error (false
for nil). -/
def isShowUsage : Option XErr → Bool
  | none => false
  | some e => e.showUsage

/-- One frame of the built call stack, as consumed by `execute`: the
command's identity, its `RunnableLifecycle` hooks (`none` when the
command does not implement the interface; otherwise the outcomes its
Initialize and Destroy return when invoked), and the outcome of `Run`. -/
structure XFrame where
  id : Nat
  lifecycle : Option (Option XErr × Option XErr)
  runRes : Option XErr
deriving DecidableEq, Repr

/-- Trace events: which hook was invoked on which command. -/
inductive Ev where
  | init (id : Nat)
  | run (id : Nat)
  | destroy (id : Nat)
deriving DecidableEq, Repr

/-- The observable outcome of the executor: a normal return carrying the
returned error value, or a process exit (`os.Exit`) with a status. -/
inductive XOut where
  | ret (e : Option XErr)
  | exit (code : Nat)
deriving DecidableEq, Repr

/-- `command.onInit`: invoke the `RunnableLifecycle` Initialize hook when
present; when its outcome wraps `ErrShowUsage`, usage is rendered and
the process exits with status 2. -/
def onInit (c : XFrame) : List Ev × XOut :=
  match c.lifecycle with
  | none => ([], .ret none)
  | some l =>
    if isShowUsage l.1 then ([.init c.id], .exit 2) else ([.init c.id], .ret l.1)

/-- `command.run`: invoke `Run`; when its outcome wraps `ErrShowUsage`,
usage is rendered and the process exits with status 2. -/
def runCmd (c : XFrame) : List Ev × XOut :=
  if isShowUsage c.runRes then ([.run c.id], .exit 2) else ([.run c.id], .ret c.runRes)

/-- `command.onDestroy`: invoke the `RunnableLifecycle` Destroy hook when
present; when its outcome wraps `ErrShowUsage`, usage is rendered and
the process exits with status 2. -/
def onDestroy (c : XFrame) : List Ev × XOut :=
  match c.lifecycle with
  | none => ([], .ret none)
  | some l =>
    if isShowUsage l.2 then ([.destroy c.id], .exit 2) else ([.destroy c.id], .ret l.2)

/-- `execute(ctx, stack, ops)`: Initialize top-down, `Run` at the leaf,
Destroy bottom-up, aborting on the first non-nil error; a process exit
raised anywhere terminates everything. -/
def execute : List XFrame → List Ev × XOut
  | [] => ([], .ret none)
  | this :: rest =>
    match onInit this with
    | (ev, .exit c) => (ev, .exit c)
    | (ev, .ret (some e)) => (ev, .ret (some e))
    | (ev, .ret none) =>
      let body := if rest.isEmpty then runCmd this else execute rest
      match body with
      | (ev2, .exit c) => (ev ++ ev2, .exit c)
      | (ev2, .ret (some e)) => (ev ++ ev2, .ret (some e))
      | (ev2, .ret none) =>
        let des := onDestroy this
        (ev ++ ev2 ++ des.1, des.2)

/-! ## Claim C1: lifecycle hook ordering -/

/-- C1: for a root frame and its child subcommand frame, both
implementing lifecycle hooks, when every hook succeeds the executor
invokes exactly `root.Initialize`, `child.Initialize`, `child.Run`,
`child.Destroy`, `root.Destroy`, in that order, and returns nil:
Initialize runs top-down and Destroy bottom-up. -/
theorem claim_C1_lifecycle_order (root child : XFrame)
    (hr : root.lifecycle = some (none, none))
    (hc : child.lifecycle = some (none, none))
    (hrun : child.runRes = none) :
    execute [root, child] =
      ([.init root.id, .init child.id, .run child.id, .destroy child.id, .destroy root.id],
        .ret none) := by
  simp [execute, onInit, runCmd, onDestroy, isShowUsage, hr, hc, hrun]

/-- The root frame of the C1 witness. -/
def c1Root : XFrame := ⟨0, some (none, none), none⟩

/-- The child frame of the C1 witness. -/
def c1Child : XFrame := ⟨1, some (none, none), none⟩

/-- Witness for C1 at a concrete two-frame stack. -/
theorem claim_C1_lifecycle_order_witness :
    execute [c1Root, c1Child] =
      ([.init 0, .init 1, .run 1, .destroy 1, .destroy 0], .ret none) :=
  claim_C1_lifecycle_order c1Root c1Child rfl rfl rfl

/-! ## Claim C2: fail-fast error propagation -/

/-- A single frame whose Initialize hook returns an error wrapping the
`ErrShowUsage` sentinel. -/
def c2Frame : XFrame := ⟨0, some (some ⟨true, 7⟩, none), none⟩

/-- C2 counterexample: the Initialize hook of the only frame returns a
non-nil error (one wrapping `ErrShowUsage`); Destroy is indeed skipped,
but the error does not propagate out of the executor — the process
exits with status 2 instead — refuting the claim that every non-nil
hook error propagates unchanged out of `Execute`. -/
theorem claim_C2_counterexample :
    c2Frame.lifecycle = some (some ⟨true, 7⟩, none) ∧
    execute [c2Frame] = ([.init 0], .exit 2) ∧
    XOut.exit 2 ≠ XOut.ret (some ⟨true, 7⟩) := by
  decide

/-- Whether a frame's Initialize hook succeeds (vacuously true when the
command has no lifecycle). -/
def initOk (c : XFrame) : Bool :=
  match c.lifecycle with
  | none => true
  | some l => l.1 == none

/-- The trace produced by a frame's Initialize invocation. -/
def initEv (c : XFrame) : List Ev :=
  match c.lifecycle with
  | none => []
  | some _ => [.init c.id]

/-- The Initialize trace of a list of frames. -/
def initEvs (l : List XFrame) : List Ev := (l.map initEv).flatten

/-- A list of the form `l ++ a :: t` is never empty. -/
theorem append_cons_isEmpty (l t : List XFrame) (a : XFrame) :
    (l ++ a :: t).isEmpty = false := by
  cases l <;> rfl

/-- C2 amended: any non-nil error from a frame's Initialize, from the
leaf frame's Run, or from the recursive descent aborts execution
immediately — the Destroy hooks of that frame and of every ancestor are
never invoked — and, provided the error does not wrap the `ErrShowUsage`
sentinel, it propagates unchanged out of the executor (an error wrapping
the sentinel instead renders usage and exits the process with status 2,
as `claim_C2_counterexample` shows).  Stated in three parts: an
Initialize failure at any depth, a leaf Run failure, and one-step
propagation of a descent error past an ancestor frame. -/
theorem claim_C2_amended :
    (∀ (pre post : List XFrame) (f : XFrame) (e : XErr) (d : Option XErr),
       (∀ g ∈ pre, initOk g = true) →
       f.lifecycle = some (some e, d) →
       e.showUsage = false →
       execute (pre ++ f :: post) = (initEvs pre ++ [.init f.id], .ret (some e))) ∧
    (∀ (pre : List XFrame) (leaf : XFrame) (e : XErr),
       (∀ g ∈ pre, initOk g = true) →
       initOk leaf = true →
       leaf.runRes = some e →
       e.showUsage = false →
       execute (pre ++ [leaf]) = (initEvs (pre ++ [leaf]) ++ [.run leaf.id], .ret (some e))) ∧
    (∀ (g : XFrame) (rest : List XFrame) (tr : List Ev) (e : XErr),
       initOk g = true →
       rest ≠ [] →
       execute rest = (tr, .ret (some e)) →
       execute (g :: rest) = (initEv g ++ tr, .ret (some e))) := by
  refine ⟨?_, ?_, ?_⟩
  · intro pre
    induction pre with
    | nil =>
      intro post f e d _ hf he
      simp [execute, onInit, initEvs, isShowUsage, hf, he]
    | cons g pre ih =>
      intro post f e d hpre hf he
      have hg : initOk g = true := hpre g (by simp)
      have hrest := ih post f e d (fun x hx => hpre x (by simp [hx])) hf he
      unfold initOk at hg
      cases hgl : g.lifecycle with
      | none =>
        simp only [List.cons_append, execute, onInit, hgl, append_cons_isEmpty, hrest]
        simp [hrest, initEvs, initEv, hgl]
      | some l =>
        rw [hgl] at hg
        simp only [beq_iff_eq] at hg
        simp only [List.cons_append, execute, onInit, hgl, hg, isShowUsage,
          append_cons_isEmpty, hrest]
        simp [hrest, initEvs, initEv, hgl]
  · intro pre
    induction pre with
    | nil =>
      intro leaf e _ hleaf hrun he
      unfold initOk at hleaf
      cases hl : leaf.lifecycle with
      | none =>
        simp [execute, onInit, runCmd, isShowUsage, initEvs, initEv, hl, hrun, he]
      | some l =>
        rw [hl] at hleaf
        simp only [beq_iff_eq] at hleaf
        simp [execute, onInit, runCmd, isShowUsage, initEvs, initEv, hl, hleaf, hrun, he]
    | cons g pre ih =>
      intro leaf e hpre hleaf hrun he
      have hg : initOk g = true := hpre g (by simp)
      have hrest := ih leaf e (fun x hx => hpre x (by simp [hx])) hleaf hrun he
      unfold initOk at hg
      cases hgl : g.lifecycle with
      | none =>
        simp only [List.cons_append, execute, onInit, hgl, append_cons_isEmpty, hrest]
        simp [hrest, initEvs, initEv, hgl]
      | some l =>
        rw [hgl] at hg
        simp only [beq_iff_eq] at hg
        simp only [List.cons_append, execute, onInit, hgl, hg, isShowUsage,
          append_cons_isEmpty, hrest]
        simp [hrest, initEvs, initEv, hgl]
  · intro g rest tr e hg hne hrest
    unfold initOk at hg
    have hemp : rest.isEmpty = false := by
      cases rest with
      | nil => exact absurd rfl hne
      | cons a t => rfl
    cases hgl : g.lifecycle with
    | none =>
      simp [execute, onInit, hgl, hemp, hrest, initEv]
    | some l =>
      rw [hgl] at hg
      simp only [beq_iff_eq] at hg
      simp [execute, onInit, isShowUsage, hgl, hg, hemp, hrest, initEv]

/-- A successful ancestor frame for the C2 amended witness. -/
def c2Pre : XFrame := ⟨0, some (none, none), none⟩

/-- A leaf frame whose Run fails with an ordinary (non-sentinel) error. -/
def c2Leaf : XFrame := ⟨1, some (none, none), some ⟨false, 9⟩⟩

/-- Witness for the amended C2 at a concrete two-frame stack: the leaf's
Run error skips every Destroy and propagates unchanged. -/
theorem claim_C2_amended_witness :
    execute [c2Pre, c2Leaf] =
      (initEvs [c2Pre, c2Leaf] ++ [.run c2Leaf.id], .ret (some ⟨false, 9⟩)) :=
  claim_C2_amended.2.1 [c2Pre] c2Leaf ⟨false, 9⟩ (by decide) (by decide) rfl rfl

/-! ## Claim C9: flag registration (`flag.FlagSet.Var`)

`Var` panics when the flag name begins or ends with `-`, contains a rune
that is neither a Unicode letter nor a Unicode digit nor `-` nor `.`, or
is already registered; otherwise the flag is appended to the registry
map.  The rune classes are modelled by the ASCII letter/digit ranges,
which agrees with `unicode.IsLetter`/`unicode.IsDigit` on every ASCII
character, so theorems about registration are stated for ASCII names. -/

/-- Validity of one rune of a flag name:
`unicode.IsLetter(r) || unicode.IsDigit(r) || r == '-' || r == '.'`
(exact for ASCII runes). -/
def nameRuneOk (c : Char) : Bool :=
  c.isAlpha || c.isDigit || c = '-' || c = '.'

/-- The reasons `FlagSet.Var` can panic, one per `panic` call site. -/
inductive VarPanic where
  | beginsWithDash
  | endsWithDash
  | invalidChar
  | alreadyRegistered
deriving DecidableEq, Repr

/-- `FlagSet.Var(value, name, usage)` of the repository's `flag` fork,
acting on the `name → flag` map (modelled as the registration list):
returns the updated registry and the panic raised, if any. -/
def fsVar (defs : List (GoStr × FlagDef)) (value : FlagDef) (name : GoStr) :
    List (GoStr × FlagDef) × Option VarPanic :=
  if name.head? = some '-' then (defs, some .beginsWithDash)
  else if name.getLast? = some '-' then (defs, some .endsWithDash)
  else if name.any (fun c => !(nameRuneOk c)) then (defs, some .invalidChar)
  else if (defs.find? (fun d => d.1 == name)).isSome then (defs, some .alreadyRegistered)
  else (defs ++ [(name, value)], none)

/-- C9 counterexample: registering the empty flag name panics according
to the claim, but `Var` accepts it — none of the prefix/suffix/character
/duplicate checks fires for `""`, and the empty-named flag is added to
the registry. -/
theorem claim_C9_counterexample :
    (fsVar [] ⟨1, false⟩ []).2 = none ∧
    (fsVar [] ⟨1, false⟩ []).1 = [([], ⟨1, false⟩)] := by
  decide

/-- C9 amended: for every ASCII name, `Var` panics if and only if the
name begins with `-`, ends with `-`, contains a character outside
`[A-Za-z0-9.-]`, or is already registered in the registry — the empty
name is accepted; and when `Var` does not panic the flag is added. -/
theorem claim_C9_amended (defs : List (GoStr × FlagDef)) (value : FlagDef) (name : GoStr)
    (_hascii : ∀ c ∈ name, c.toNat < 128) :
    ((fsVar defs value name).2.isSome ↔
      (name.head? = some '-' ∨ name.getLast? = some '-' ∨
        name.any (fun c => !(nameRuneOk c)) = true ∨
        (defs.find? (fun d => d.1 == name)).isSome = true)) ∧
    ((fsVar defs value name).2 = none →
      (fsVar defs value name).1 = defs ++ [(name, value)]) := by
  unfold fsVar
  split_ifs with h1 h2 h3 h4
  · exact ⟨by simp [h1], by simp⟩
  · exact ⟨by simp [h2], by simp⟩
  · exact ⟨by simp [h3], by simp⟩
  · exact ⟨by simp [h4], by simp⟩
  · refine ⟨by simp [h1, h2, h3, h4], fun _ => rfl⟩

/-- Witness for the amended C9: registering the ASCII name `count` in an
empty registry panics for no reason and adds the flag. -/
theorem claim_C9_amended_witness :
    (((fsVar [] ⟨1, false⟩ (gs "count")).2.isSome ↔
      ((gs "count").head? = some '-' ∨ (gs "count").getLast? = some '-' ∨
        (gs "count").any (fun c => !(nameRuneOk c)) = true ∨
        (List.find? (fun d => d.1 == gs "count") ([] : List (GoStr × FlagDef))).isSome = true)) ∧
     ((fsVar [] ⟨1, false⟩ (gs "count")).2 = none →
       (fsVar [] ⟨1, false⟩ (gs "count")).1 = [] ++ [(gs "count", ⟨1, false⟩)])) :=
  claim_C9_amended [] ⟨1, false⟩ (gs "count") (by decide)

/-! ## The call-stack builder

`buildCallStack` walks the command tree: at each level it creates a
fresh flag set carrying the automatic help flags plus the command's own
registrations (`InitializeFlags`), optionally binds environment
variables (`bindEnvironmentFlags`), parses that level's arguments
(`parseArgs`) and then either stops — when the residual is empty or its
first token does not name a registered subcommand — or consumes the
first residual token and descends into the named subcommand.

The embedding covers the default getopt parser (`WithNativeFlags`
unset).  A command tree node records its name, its flag registrations
(name, shared value-instance id, boolean capability) and its
subcommands; the two automatic help flags share value instance `0`
(they are bound to the same `showHelp` variable), whose boolean `Set`
accepts exactly the `strconv.ParseBool` spellings. -/

/-- A command tree: `Name()`, the registrations `InitializeFlags`
performs, and `Subcommands()`. -/
inductive CmdTree where
  | node (name : GoStr) (regs : List (GoStr × FlagDef)) (subs : List CmdTree)

/-- The command's `Name()`. -/
def CmdTree.name : CmdTree → GoStr
  | .node n _ _ => n

/-- The flag registrations the command performs. -/
def CmdTree.regs : CmdTree → List (GoStr × FlagDef)
  | .node _ r _ => r

/-- The command's `Subcommands()`. -/
def CmdTree.subs : CmdTree → List CmdTree
  | .node _ _ s => s

mutual

/-- Structural equality of command trees (used only to state membership
of a frame's command among a parent's subcommands). -/
def cmdTreeBEq : CmdTree → CmdTree → Bool
  | .node n1 r1 s1, .node n2 r2 s2 => n1 == n2 && r1 == r2 && cmdForestBEq s1 s2

/-- Structural equality of subcommand lists. -/
def cmdForestBEq : List CmdTree → List CmdTree → Bool
  | [], [] => true
  | t :: ts, u :: us => cmdTreeBEq t u && cmdForestBEq ts us
  | _, _ => false

end

mutual

theorem cmdTreeBEq_rfl : ∀ t : CmdTree, cmdTreeBEq t t = true
  | .node n r s => by simp [cmdTreeBEq, cmdForestBEq_rfl s]

theorem cmdForestBEq_rfl : ∀ ts : List CmdTree, cmdForestBEq ts ts = true
  | [] => rfl
  | t :: ts => by simp [cmdForestBEq, cmdTreeBEq_rfl t, cmdForestBEq_rfl ts]

end

/-- `strconv.ParseBool` accepts exactly these spellings. -/
def goBoolAccepts (s : GoStr) : Bool :=
  s ∈ [gs "1", gs "t", gs "T", gs "TRUE", gs "true", gs "True",
       gs "0", gs "f", gs "F", gs "FALSE", gs "false", gs "False"]

/-- The fresh per-level flag set of `buildCallStack`: the automatic `h`
and `help` boolean flags (sharing the `showHelp` storage, value
instance 0) followed by the command's own registrations. -/
def mkRegistry (A : Nat → GoStr → Bool) (t : CmdTree) : Registry :=
  ⟨(gs "h", ⟨0, true⟩) :: (gs "help", ⟨0, true⟩) :: t.regs,
   fun id s => if id = 0 then goBoolAccepts s else A id s⟩

/-- `collectSubcommands(cmd)[a]`: the subcommand map is keyed by name
with later registrations overwriting earlier ones, so lookup returns
the last subcommand carrying the name. -/
def findSub (subs : List CmdTree) (a : GoStr) : Option CmdTree :=
  (subs.filter (fun s => s.name == a)).getLast?

/-- Lexicographic strictly-less-than on Go strings (`slices.Sorted` key
order; UTF-8 byte order coincides with code-point order). -/
def strLt : GoStr → GoStr → Bool
  | [], [] => false
  | [], _ :: _ => true
  | _ :: _, [] => false
  | a :: as, b :: bs => if a < b then true else if b < a then false else strLt as bs

/-- Insertion into a name-sorted list. -/
def insertStr (x : GoStr) : List GoStr → List GoStr
  | [] => [x]
  | y :: ys => if strLt x y then x :: y :: ys else y :: insertStr x ys

/-- Sorting a list of names (`slices.Sorted(maps.Keys(...))`). -/
def sortStrs (l : List GoStr) : List GoStr := l.foldr insertStr []

/-- `FlagSet.VisitAll` order: every registered flag, visited in
name-lexicographic order (map keys are unique, hence the dedup). -/
def visitAllFlags (defs : List (GoStr × FlagDef)) : List (GoStr × FlagDef) :=
  (sortStrs (defs.map (·.1)).dedup).filterMap
    (fun n => (defs.find? (fun d => d.1 == n)).map (fun d => (n, d.2)))

/-- One path component of an environment variable name: strip every
character outside `[a-zA-Z0-9]` (the Go regexp replacement), then
upper-case (`strings.ToUpper`; the input is ASCII alphanumeric after
the strip, so ASCII upper-casing is exact). -/
def envComponent (s : GoStr) : GoStr :=
  (s.filter (fun c => c.isAlpha || c.isDigit)).map Char.toUpper

/-- `formatEnvvar(flagpath)`: normalise each component and join with
underscores. -/
def formatEnvvar (flagpath : List GoStr) : GoStr :=
  List.intercalate (gs "_") (flagpath.map envComponent)

/-- The loop of `bindEnvironmentFlags`: for each flag of the level's
flag set (in `VisitAll` order), look up the environment variable named
by the prefix plus the command-name path plus the flag name; when
present, apply its value directly through the flag value's `Set`
(without marking the flag as explicitly set), aborting with
`ErrEnvironmentBindFailure` when `Set` rejects the value. -/
def bindEnvFlags (r : Registry) (env : GoStr → Option GoStr) (components : List GoStr)
    (pfx : GoStr) : PSt → List (GoStr × FlagDef) → PSt × Option GoErr
  | st, [] => (st, none)
  | st, (n, d) :: rest =>
    match env (pfx ++ formatEnvvar (components ++ [n])) with
    | none => bindEnvFlags r env components pfx st rest
    | some v =>
      if r.accepts d.valueId v then
        bindEnvFlags r env components pfx
          { st with valLog := st.valLog ++ [(d.valueId, v)] } rest
      else (st, some (.envBindFailed n (pfx ++ formatEnvvar (components ++ [n]))))

/-- Options of `Execute` relevant to the call-stack builder, with the
default getopt parser (`WithNativeFlags` unset). -/
structure Ops where
  bindEnv : Bool
  bindEnvPfx : GoStr
  interspersed : Bool
deriving DecidableEq, Repr

/-- The loop of `parseArgs`, fuelled: parse flags; without interspersed
parsing the residual is returned at once, with it the first residual
token is collected as processed and scanning resumes.  Every continuing
iteration consumes at least one argument, so the fuel
`args.length + 2` supplied by `parseArgsM` is never exhausted. -/
def parseArgsLoop (r : Registry) (intersp : Bool) :
    Nat → PSt → List GoStr → List GoStr → PSt × List GoStr × Option GoErr
  | 0, st, _, _ => (st, [], some .fuel)
  | _ + 1, st, [], processed => (st, processed, none)
  | fuel + 1, st, a :: args, processed =>
    let res := fsParse r st (a :: args)
    match res.2 with
    | some e => (res.1, [], some e)
    | none =>
      if !intersp then (res.1, res.1.args, none)
      else
        match res.1.args with
        | [] => parseArgsLoop r intersp fuel res.1 [] processed
        | b :: rest => parseArgsLoop r intersp fuel res.1 rest (processed ++ [b])

/-- `parseArgs(cmd, args, ops)`: interspersed parsing is only possible
for leaf commands (disabled whenever the command has subcommands). -/
def parseArgsM (r : Registry) (hasSubs : Bool) (ops : Ops) (st : PSt) (args : List GoStr) :
    PSt × List GoStr × Option GoErr :=
  parseArgsLoop r (ops.interspersed && !hasSubs) (args.length + 2) st args []

/-- One frame of the built call stack: the command, its flag-set state
after parsing, and its residual arguments (`command.args`). -/
structure Frame where
  cmd : CmdTree
  st : PSt
  args : List GoStr

/-- The environment-binding step of one `buildCallStack` level (a no-op
returning the fresh flag-set state when `WithEnvironmentBinding` is not
given). -/
def levelEnvBind (A : Nat → GoStr → Bool) (env : GoStr → Option GoStr) (ops : Ops)
    (anc : List GoStr) (t : CmdTree) : PSt × Option GoErr :=
  let r := mkRegistry A t
  if ops.bindEnv then bindEnvFlags r env (anc ++ [t.name]) ops.bindEnvPfx pst0 (visitAllFlags r.defs)
  else (pst0, none)

/-- The argument-parsing step of one `buildCallStack` level. -/
def levelParse (A : Nat → GoStr → Bool) (ops : Ops) (t : CmdTree) (st : PSt)
    (args : List GoStr) : PSt × List GoStr × Option GoErr :=
  parseArgsM (mkRegistry A t) (!t.subs.isEmpty) ops st args

/-- The loop of `buildCallStack`, fuelled by tree depth: build the
level's flag set, bind environment variables when enabled, parse the
level's arguments, then stop (empty residual, or first residual token
not naming a subcommand) or consume the first residual token and
descend.  `anc` carries the names of the frames built so far, used for
environment variable naming. -/
def buildAux (A : Nat → GoStr → Bool) (env : GoStr → Option GoStr) (ops : Ops) :
    Nat → List GoStr → CmdTree → List GoStr → Except GoErr (List Frame)
  | 0, _, _, _ => .error .fuel
  | fuel + 1, anc, t, args =>
    match levelEnvBind A env ops anc t with
    | (_, some e) => .error e
    | (st1, none) =>
      match levelParse A ops t st1 args with
      | (_, _, some e) => .error e
      | (st2, res, none) =>
        match res with
        | [] => .ok [⟨t, st2, res⟩]
        | a :: rest =>
          match findSub t.subs a with
          | some sub =>
            match buildAux A env ops fuel (anc ++ [t.name]) sub rest with
            | .error e => .error e
            | .ok stack => .ok (⟨t, st2, res⟩ :: stack)
          | none => .ok [⟨t, st2, res⟩]

mutual

/-- The depth of a command tree: an upper bound on the number of levels
`buildCallStack` can descend. -/
def treeDepth : CmdTree → Nat
  | .node _ _ subs => treeDepthList subs + 1

/-- The maximum depth of a subcommand list. -/
def treeDepthList : List CmdTree → Nat
  | [] => 0
  | t :: ts => max (treeDepth t) (treeDepthList ts)

end

/-- `buildCallStack(cmd, ops)`: the first frame holds the root command,
the last the leaf. -/
def buildCallStack (A : Nat → GoStr → Bool) (env : GoStr → Option GoStr) (ops : Ops)
    (t : CmdTree) (args : List GoStr) : Except GoErr (List Frame) :=
  buildAux A env ops (treeDepth t) [] t args

/-! ## Claim C5: unmatched subcommand tokens -/

/-- C5: when, after parsing one level's flags (and binding that level's
environment variables, when enabled), the first residual token does not
name a registered subcommand of that level's command, call-stack
construction stops at that level without error: that level is the leaf
frame and the unmatched token remains the first positional argument of
the leaf frame. -/
theorem claim_C5_unmatched_token_stops (A : Nat → GoStr → Bool) (env : GoStr → Option GoStr)
    (ops : Ops) (fuel : Nat) (anc : List GoStr) (t : CmdTree) (args : List GoStr)
    (stE stP : PSt) (a : GoStr) (rest : List GoStr)
    (henv : levelEnvBind A env ops anc t = (stE, none))
    (hpar : levelParse A ops t stE args = (stP, a :: rest, none))
    (hsub : findSub t.subs a = none) :
    buildAux A env ops (fuel + 1) anc t args = .ok [⟨t, stP, a :: rest⟩] := by
  simp only [buildAux, henv, hpar, hsub]

/-- A value-behaviour assignment whose instances accept every text. -/
def acceptAll : Nat → GoStr → Bool := fun _ _ => true

/-- An empty environment. -/
def envNone : GoStr → Option GoStr := fun _ => none

/-- Default execute options: no environment binding, no interspersed
parsing. -/
def opsDefault : Ops := ⟨false, [], false⟩

/-- A root command with one subcommand named `other`, for the C5
witness. -/
def c5Tree : CmdTree := .node (gs "root") [] [.node (gs "other") [] []]

/-- Witness for C5: the token `nonsub` does not name a subcommand of
`root`, so the stack is the single root frame with `nonsub` as its
first positional argument. -/
theorem claim_C5_unmatched_token_stops_witness :
    buildAux acceptAll envNone opsDefault 1 [] c5Tree [gs "nonsub"] =
      .ok [⟨c5Tree, ⟨[], [], [gs "nonsub"]⟩, [gs "nonsub"]⟩] :=
  claim_C5_unmatched_token_stops acceptAll envNone opsDefault 0 [] c5Tree [gs "nonsub"]
    ⟨[], [], []⟩ ⟨[], [], [gs "nonsub"]⟩ (gs "nonsub") [] rfl rfl rfl

/-! ## Claim C10: shape of the built call stack -/

/-- The chain invariant of a built call stack: consecutive frames are
linked by a registered subcommand edge, and the consumed token (the
first residual token of the earlier frame) is the later command's
name. -/
def chainOk : List Frame → Bool
  | [] => true
  | [_] => true
  | f :: g :: rest =>
    (f.args.head? == some g.cmd.name) &&
      (f.cmd.subs.any (fun s => cmdTreeBEq s g.cmd)) && chainOk (g :: rest)

/-- A successful subcommand lookup returns a member of the subcommand
list whose name is the looked-up token. -/
theorem findSub_mem {subs : List CmdTree} {a : GoStr} {s : CmdTree}
    (h : findSub subs a = some s) : s ∈ subs ∧ s.name = a := by
  unfold findSub at h
  have hm : s ∈ subs.filter (fun s => s.name == a) := by
    obtain ⟨hne, heq⟩ := List.mem_getLast?_eq_getLast (show s ∈ _ from h)
    rw [heq]
    exact List.getLast_mem hne
  have := List.mem_filter.mp hm
  exact ⟨this.1, by simpa using this.2⟩

/-- C10: whenever `buildCallStack` succeeds, the produced stack is
non-empty, its first frame holds the root command, and every pair of
consecutive frames is linked root-first by a registered subcommand edge
whose name is the residual token consumed at the earlier level. -/
theorem claim_C10_stack_shape (A : Nat → GoStr → Bool) (env : GoStr → Option GoStr)
    (ops : Ops) (fuel : Nat) (anc : List GoStr) (t : CmdTree) (args : List GoStr)
    (stack : List Frame)
    (h : buildAux A env ops fuel anc t args = .ok stack) :
    stack ≠ [] ∧ stack.head?.map Frame.cmd = some t ∧ chainOk stack = true := by
  induction fuel generalizing anc t args stack with
  | zero => simp [buildAux] at h
  | succ fuel ih =>
    simp only [buildAux] at h
    split at h
    · cases h
    · split at h
      · cases h
      · rename_i st2 res heqpar
        split at h
        · cases h
          exact ⟨by simp, by simp, rfl⟩
        · rename_i a rest
          split at h
          · rename_i sub hfind
            split at h
            · cases h
            · rename_i stack2 hrec
              cases h
              obtain ⟨hne, hhead, hchain⟩ := ih _ _ _ _ hrec
              obtain ⟨hmem, hname⟩ := findSub_mem hfind
              cases stack2 with
              | nil => exact absurd rfl hne
              | cons g rest2 =>
                refine ⟨by simp, by simp, ?_⟩
                simp only [List.head?_cons, Option.map_some] at hhead
                have hg : g.cmd = sub := by
                  injection hhead
                simp only [chainOk, Bool.and_eq_true]
                refine ⟨⟨?_, ?_⟩, hchain⟩
                · simp [hg, hname]
                · refine List.any_eq_true.mpr ⟨sub, hmem, ?_⟩
                  rw [hg]
                  exact cmdTreeBEq_rfl sub
          · cases h
            exact ⟨by simp, by simp, rfl⟩

/-- A two-level tree for the C10 witness. -/
def c10Tree : CmdTree := .node (gs "root") [] [.node (gs "sub") [] []]

/-- The stack built for `c10Tree` on the argument vector `["sub"]`. -/
def c10Stack : List Frame :=
  [⟨c10Tree, ⟨[], [], [gs "sub"]⟩, [gs "sub"]⟩,
   ⟨.node (gs "sub") [] [], ⟨[], [], []⟩, []⟩]

/-- Witness for C10 at a concrete two-level tree. -/
theorem claim_C10_stack_shape_witness :
    c10Stack ≠ [] ∧ c10Stack.head?.map Frame.cmd = some c10Tree ∧ chainOk c10Stack = true :=
  claim_C10_stack_shape acceptAll envNone opsDefault 2 [] c10Tree [gs "sub"] c10Stack rfl

/-! ## Claim C8: environment binding

`bindEnvironmentFlags` runs before `parseArgs` within each level of
`buildCallStack`, applying environment values through the same textual
`Set` contract; explicit command-line values are applied later and
therefore override environment-sourced ones.  The monotonicity lemmas
below show that parsing only appends to the value log, which yields the
override property for the final value of every value instance. -/

/-- The final value of a value instance: the last text successfully
applied to it. -/
def lastVal (log : List (Nat × GoStr)) (id : Nat) : Option GoStr :=
  ((log.filter (fun p => p.1 == id)).getLast?).map (·.2)

theorem lastVal_append (a b : List (Nat × GoStr)) (id : Nat) :
    lastVal (a ++ b) id = (lastVal b id).or (lastVal a id) := by
  unfold lastVal
  rw [List.filter_append, List.getLast?_append]
  cases (b.filter (fun p => p.1 == id)).getLast? <;> simp

theorem fsSet_log_mono (r : Registry) (st : PSt) (n v : GoStr) :
    ∃ Δ, (fsSet r st n v).1.valLog = st.valLog ++ Δ := by
  unfold fsSet
  cases hl : rLookup r n with
  | none => exact ⟨[], by simp⟩
  | some d =>
    cases hacc : r.accepts d.valueId v with
    | false => exact ⟨[], by simp [hacc]⟩
    | true => exact ⟨[(d.valueId, v)], by simp [hacc]⟩

theorem parseLong_log_mono (r : Registry) (st : PSt) (a0 : GoStr) (args : List GoStr) :
    ∃ Δ, (parseLong r st a0 args).1.valLog = st.valLog ++ Δ := by
  simp only [parseLong]
  split
  · split
    · exact ⟨[], by simp⟩
    · exact ⟨[], by simp⟩
  · split
    · split
      · apply fsSet_log_mono
      · apply fsSet_log_mono
    · split
      · split
        · apply fsSet_log_mono
        · apply fsSet_log_mono
      · split
        · exact ⟨[], by simp⟩
        · split
          · apply fsSet_log_mono
          · apply fsSet_log_mono

theorem parseShort_log_mono (r : Registry) :
    ∀ (short : GoStr) (st : PSt) (args : List GoStr),
      ∃ Δ, (parseShort r st short args).1.valLog = st.valLog ++ Δ := by
  intro short
  induction short with
  | nil => intro st args; exact ⟨[], by simp [parseShort]⟩
  | cons c cs ih =>
    intro st args
    simp only [parseShort]
    split
    · split <;> exact ⟨[], by simp⟩
    · split
      · split
        · apply fsSet_log_mono
        · obtain ⟨d1, h1⟩ := fsSet_log_mono r st [c] (gs "true")
          obtain ⟨d2, h2⟩ := ih (fsSet r st [c] (gs "true")).1 args
          exact ⟨d1 ++ d2, by rw [h2, h1, List.append_assoc]⟩
      · split
        · split
          · apply fsSet_log_mono
          · apply fsSet_log_mono
        · split
          · exact ⟨[], by simp⟩
          · split
            · apply fsSet_log_mono
            · apply fsSet_log_mono

theorem fsParseAux_log_mono (r : Registry) :
    ∀ (fuel : Nat) (st : PSt) (args : List GoStr),
      ∃ Δ, (fsParseAux r fuel st args).1.valLog = st.valLog ++ Δ := by
  intro fuel
  induction fuel with
  | zero => intro st args; exact ⟨[], by simp [fsParseAux]⟩
  | succ fuel ih =>
    intro st args
    cases args with
    | nil => exact ⟨[], by simp [fsParseAux]⟩
    | cons a rest =>
      simp only [fsParseAux]
      split
      · exact ⟨[], by simp⟩
      · split
        · exact ⟨[], by simp⟩
        · split
          · split
            · apply parseLong_log_mono
            · obtain ⟨d1, h1⟩ := parseLong_log_mono r st _ rest
              obtain ⟨d2, h2⟩ := ih (parseLong r st _ rest).1 (parseLong r st _ rest).2.1
              exact ⟨d1 ++ d2, by rw [h2, h1, List.append_assoc]⟩
          · split
            · split
              · apply parseShort_log_mono
              · obtain ⟨d1, h1⟩ := parseShort_log_mono r _ st rest
                obtain ⟨d2, h2⟩ :=
                  ih (parseShort r st _ rest).1 (parseShort r st _ rest).2.1
                exact ⟨d1 ++ d2, by rw [h2, h1, List.append_assoc]⟩
            · exact ⟨[], by simp⟩

theorem fsParse_log_mono (r : Registry) (st : PSt) (args : List GoStr) :
    ∃ Δ, (fsParse r st args).1.valLog = st.valLog ++ Δ :=
  fsParseAux_log_mono r (args.length + 1) st args

theorem parseArgsLoop_log_mono (r : Registry) (intersp : Bool) :
    ∀ (fuel : Nat) (st : PSt) (args processed : List GoStr),
      ∃ Δ, (parseArgsLoop r intersp fuel st args processed).1.valLog = st.valLog ++ Δ := by
  intro fuel
  induction fuel with
  | zero => intro st args processed; exact ⟨[], by simp [parseArgsLoop]⟩
  | succ fuel ih =>
    intro st args processed
    cases args with
    | nil => exact ⟨[], by simp [parseArgsLoop]⟩
    | cons a rest =>
      simp only [parseArgsLoop]
      split
      · apply fsParse_log_mono
      · split
        · apply fsParse_log_mono
        · split
          · obtain ⟨d1, h1⟩ := fsParse_log_mono r st (a :: rest)
            obtain ⟨d2, h2⟩ := ih (fsParse r st (a :: rest)).1 [] processed
            exact ⟨d1 ++ d2, by rw [h2, h1, List.append_assoc]⟩
          · obtain ⟨d1, h1⟩ := fsParse_log_mono r st (a :: rest)
            obtain ⟨d2, h2⟩ := ih (fsParse r st (a :: rest)).1 _ (processed ++ [_])
            exact ⟨d1 ++ d2, by rw [h2, h1, List.append_assoc]⟩

theorem bindEnvFlags_log_mono (r : Registry) (env : GoStr → Option GoStr)
    (comps : List GoStr) (pfx : GoStr) :
    ∀ (flags : List (GoStr × FlagDef)) (st : PSt),
      ∃ Δ, (bindEnvFlags r env comps pfx st flags).1.valLog = st.valLog ++ Δ := by
  intro flags
  induction flags with
  | nil => intro st; exact ⟨[], by simp [bindEnvFlags]⟩
  | cons f rest ih =>
    intro st
    obtain ⟨n, d⟩ := f
    simp only [bindEnvFlags]
    split
    · exact ih st
    · split
      · rename_i v _ _
        obtain ⟨d2, h2⟩ := ih { st with valLog := st.valLog ++ [(d.valueId, v)] }
        exact ⟨(d.valueId, v) :: d2, by rw [h2]; simp⟩
      · exact ⟨[], by simp⟩

/-- Every flag of the level whose environment variable is present has
that variable's value applied to its value instance by a successful
`bindEnvironmentFlags` pass. -/
theorem bindEnvFlags_applied (r : Registry) (env : GoStr → Option GoStr)
    (comps : List GoStr) (pfx : GoStr) :
    ∀ (flags : List (GoStr × FlagDef)) (st stE : PSt),
      bindEnvFlags r env comps pfx st flags = (stE, none) →
      st.valLog ⊆ stE.valLog ∧
      ∀ n d v, (n, d) ∈ flags →
        env (pfx ++ formatEnvvar (comps ++ [n])) = some v →
        (d.valueId, v) ∈ stE.valLog := by
  intro flags
  induction flags with
  | nil =>
    intro st stE h
    simp only [bindEnvFlags] at h
    cases h
    exact ⟨fun x hx => hx, by simp⟩
  | cons f rest ih =>
    intro st stE h
    obtain ⟨m, dm⟩ := f
    simp only [bindEnvFlags] at h
    split at h
    · rename_i hvar
      obtain ⟨hsub, happ⟩ := ih st stE h
      refine ⟨hsub, ?_⟩
      intro n d v hmem hv
      rcases List.mem_cons.mp hmem with heq | hmem2
      · obtain ⟨hn, hd⟩ := Prod.mk.injEq .. ▸ heq
        subst hn
        rw [hvar] at hv
        cases hv
      · exact happ n d v hmem2 hv
    · split at h
      · rename_i v0 hvar hacc
        obtain ⟨hsub, happ⟩ :=
          ih { st with valLog := st.valLog ++ [(dm.valueId, v0)] } stE h
        have hsub2 : st.valLog ⊆ stE.valLog := by
          intro x hx
          exact hsub (by simp [hx])
        refine ⟨hsub2, ?_⟩
        intro n d v hmem hv
        rcases List.mem_cons.mp hmem with heq | hmem2
        · have hn : n = m := congrArg Prod.fst heq
          have hd : d = dm := congrArg Prod.snd heq
          subst hn
          subst hd
          rw [hvar] at hv
          injection hv with hv
          subst hv
          exact hsub (by simp)
        · exact happ n d v hmem2 hv
      · cases h

/-- The final state of a frame's flag set after `buildCallStack` arises
from binding that frame's environment variables first and parsing the
frame's arguments afterwards. -/
theorem buildAux_frame_factored (A : Nat → GoStr → Bool) (env : GoStr → Option GoStr)
    (ops : Ops) :
    ∀ (fuel : Nat) (anc : List GoStr) (t : CmdTree) (args : List GoStr)
      (stack : List Frame),
      buildAux A env ops fuel anc t args = .ok stack →
      ∀ fr ∈ stack, ∃ anc2 args2 stE,
        levelEnvBind A env ops anc2 fr.cmd = (stE, none) ∧
        levelParse A ops fr.cmd stE args2 = (fr.st, fr.args, none) := by
  intro fuel
  induction fuel with
  | zero => intro anc t args stack h; simp [buildAux] at h
  | succ fuel ih =>
    intro anc t args stack h
    simp only [buildAux] at h
    split at h
    · cases h
    · rename_i st1 henv
      split at h
      · cases h
      · rename_i st2 res hpar
        split at h
        · cases h
          intro fr hfr
          simp only [List.mem_singleton] at hfr
          subst hfr
          exact ⟨anc, args, st1, henv, hpar⟩
        · rename_i a rest
          split at h
          · split at h
            · cases h
            · rename_i sub hfind stack2 hrec
              cases h
              intro fr hfr
              rcases List.mem_cons.mp hfr with heq | hmem
              · subst heq
                exact ⟨anc, args, st1, henv, hpar⟩
              · exact ih _ _ _ _ hrec fr hmem
          · cases h
            intro fr hfr
            simp only [List.mem_singleton] at hfr
            subst hfr
            exact ⟨anc, args, st1, henv, hpar⟩

/-- The root command of the environment-binding example: `bind-env` with
subcommand `show` carrying the non-boolean flag `count` (value
instance 1). -/
def c8Show : CmdTree := .node (gs "show") [(gs "count", ⟨1, false⟩)] []

/-- The example command tree. -/
def c8Tree : CmdTree := .node (gs "bind-env") [] [c8Show]

/-- The example environment: only `BINDENV_SHOW_COUNT=20` is set. -/
def c8Env : GoStr → Option GoStr :=
  fun v => if v = gs "BINDENV_SHOW_COUNT" then some (gs "20") else none

/-- Environment binding enabled with an empty prefix. -/
def c8Ops : Ops := ⟨true, [], false⟩

/-- The value of the `count` flag (value instance 1) at the leaf frame of
a built call stack. -/
def leafCountVal (res : Except GoErr (List Frame)) : Option GoStr :=
  match res with
  | .error _ => none
  | .ok stack =>
    match stack.getLast? with
    | none => none
    | some fr => lastVal fr.st.valLog 1

/-- C8: with environment binding enabled, (1) every frame's flag-set
state is produced by binding that frame's environment variables first
and parsing the frame's arguments afterwards; (2) whenever a flag
registered at the frame has its environment variable (prefix plus
underscore-joined, upper-cased, alphanumeric-stripped command path and
flag name) present in the environment, the variable's value is applied
to the flag's value instance by the binding pass; (3) parsing only
appends to the value log, so the final value of an instance is the last
command-line value when one was parsed and the pre-parse
(environment-sourced) value otherwise — an explicit command-line value
always overrides the environment; and concretely (4) the spec example:
`BINDENV_SHOW_COUNT=20` with argument vector `["show"]` yields
`count == "20"`, while `["show", "--count", "5"]` yields
`count == "5"` regardless of the variable. -/
theorem claim_C8_env_binding :
    (∀ (A : Nat → GoStr → Bool) (env : GoStr → Option GoStr) (ops : Ops)
       (fuel : Nat) (anc : List GoStr) (t : CmdTree) (args : List GoStr)
       (stack : List Frame),
       buildAux A env ops fuel anc t args = .ok stack →
       ∀ fr ∈ stack, ∃ anc2 args2 stE,
         levelEnvBind A env ops anc2 fr.cmd = (stE, none) ∧
         levelParse A ops fr.cmd stE args2 = (fr.st, fr.args, none)) ∧
    (∀ (A : Nat → GoStr → Bool) (env : GoStr → Option GoStr) (ops : Ops)
       (anc : List GoStr) (t : CmdTree) (stE : PSt),
       ops.bindEnv = true →
       levelEnvBind A env ops anc t = (stE, none) →
       ∀ n d v, (n, d) ∈ visitAllFlags (mkRegistry A t).defs →
         env (ops.bindEnvPfx ++ formatEnvvar ((anc ++ [t.name]) ++ [n])) = some v →
         (d.valueId, v) ∈ stE.valLog) ∧
    (∀ (A : Nat → GoStr → Bool) (ops : Ops) (t : CmdTree) (st stP : PSt)
       (args res : List GoStr),
       levelParse A ops t st args = (stP, res, none) →
       ∃ Δ, stP.valLog = st.valLog ++ Δ ∧
         ∀ id, lastVal stP.valLog id = (lastVal Δ id).or (lastVal st.valLog id)) ∧
    leafCountVal (buildCallStack acceptAll c8Env c8Ops c8Tree [gs "show"]) = some (gs "20") ∧
    leafCountVal (buildCallStack acceptAll c8Env c8Ops c8Tree
      [gs "show", gs "--count", gs "5"]) = some (gs "5") := by
  refine ⟨buildAux_frame_factored, ?_, ?_, by decide, by decide⟩
  · intro A env ops anc t stE hbind henv n d v hmem hv
    unfold levelEnvBind at henv
    rw [hbind] at henv
    simp only [if_pos] at henv
    exact (bindEnvFlags_applied _ env _ ops.bindEnvPfx _ pst0 stE henv).2 n d v hmem hv
  · intro A ops t st stP args res h
    have hmono := parseArgsLoop_log_mono (mkRegistry A t)
      (ops.interspersed && !(!t.subs.isEmpty)) (args.length + 2) st args []
    unfold levelParse parseArgsM at h
    rw [h] at hmono
    obtain ⟨Δ, hΔ⟩ := hmono
    refine ⟨Δ, hΔ, ?_⟩
    intro id
    rw [hΔ, lastVal_append]

/-- Witness for C8: the `count` flag of the `show` frame (built under
root `bind-env` with empty prefix) receives the value of
`BINDENV_SHOW_COUNT` during the binding pass. -/
theorem claim_C8_env_binding_witness :
    ((1 : Nat), gs "20") ∈ (PSt.mk [(1, gs "20")] [] []).valLog :=
  claim_C8_env_binding.2.1 acceptAll c8Env c8Ops [gs "bind-env"] c8Show
    ⟨[(1, gs "20")], [], []⟩ rfl rfl (gs "count") ⟨1, false⟩ (gs "20")
    (by decide) rfl

/-! ## The structured map flag value (`getopt.MapVar`)

`MapVar.Set` parses its text with an `encoding/csv` reader (default
configuration: comma separator, strict quoting, no comment handling)
and requires exactly one record; each field is cut at its first `=`
into a key/value pair inserted into the map.  `MapVar.String` renders
the sorted `k=v` entries as one csv record and trims the trailing
newline.

The reader is modelled in two stages, mirroring `csv.Reader.readLine`:
a preprocessing pass that rewrites every `\r\n` line ending to `\n` and
drops a final `\r` before EOF, followed by a character-level scanner
for quoted and unquoted fields.  The `FieldsPerRecord` count check is
omitted: it can only reject inputs with several records, which
`MapVar.Set` rejects anyway (`len(pairs) != 1`), so the observable
outcome is the same error. -/

/-- Whether the two-character sequence `\r\n` occurs in a string. -/
def hasCRLF : GoStr → Bool
  | [] => false
  | c :: s => ((c == '\r') && (s.head? == some '\n')) || hasCRLF s

/-- `csv.Reader.readLine` normalisation: every `\r\n` becomes `\n`
(each `\n` ends a line and a `\r` directly before it is folded in). -/
def normCRLF : GoStr → GoStr
  | [] => []
  | c :: s =>
    if c = '\r' && s.head? = some '\n' then normCRLF s
    else c :: normCRLF s

/-- `csv.Reader.readLine` drops a trailing `\r` directly before EOF. -/
def dropTrailingCR (s : GoStr) : GoStr :=
  if s.getLast? = some '\r' then s.dropLast else s

/-- The combined line-reading normalisation of the csv reader. -/
def csvPre (s : GoStr) : GoStr := dropTrailingCR (normCRLF s)

/-- Errors of the csv reader, one per `ParseError` kind reachable from
`MapVar.Set` (plus the never-reached fuel marker). -/
inductive CsvErr where
  | quoteBare
  | quoteStray
  | quoteUnterminated
  | fuel
deriving DecidableEq, Repr

/-- How a field ended: at a comma, at a line end, or at EOF. -/
inductive FieldEnd where
  | comma
  | nl
  | eof
deriving DecidableEq, Repr

/-- An unquoted csv field: everything up to the next comma or line end
(`field = line[:i]` / `field[:len-lengthNL]`). -/
def scanUnquoted : GoStr → GoStr × FieldEnd × GoStr
  | [] => ([], .eof, [])
  | c :: s =>
    if c = ',' then ([], .comma, s)
    else if c = '\n' then ([], .nl, s)
    else
      let r := scanUnquoted s
      (c :: r.1, r.2.1, r.2.2)

/-- A quoted csv field, after the opening quote: `""` is a literal
quote, a closing quote must be followed by a comma, a line end or EOF
(else `ErrQuote`), anything else — including newlines — is content, and
EOF before the closing quote is `ErrQuote` (unterminated). -/
def scanQuoted : GoStr → Except CsvErr (GoStr × FieldEnd × GoStr)
  | [] => .error .quoteUnterminated
  | c :: s =>
    if c = '"' then
      match s with
      | [] => .ok ([], .eof, [])
      | c2 :: r2 =>
        if c2 = '"' then (scanQuoted r2).map (fun p => ('"' :: p.1, p.2.1, p.2.2))
        else if c2 = ',' then .ok ([], .comma, r2)
        else if c2 = '\n' then .ok ([], .nl, r2)
        else .error .quoteStray
    else (scanQuoted s).map (fun p => (c :: p.1, p.2.1, p.2.2))

/-- One csv field: a field starting with `"` is quoted; otherwise it
runs to the next comma or line end and must not contain a bare quote
(`ErrBareQuote`). -/
def parseField (s : GoStr) : Except CsvErr (GoStr × FieldEnd × GoStr) :=
  match s with
  | [] => .ok ([], .eof, [])
  | c :: rest =>
    if c = '"' then scanQuoted rest
    else
      let r := scanUnquoted (c :: rest)
      if r.1.contains '"' then .error .quoteBare else .ok r

/-- One csv record: fields separated by commas, ended by a line end
(returning the remaining input) or EOF.  Each recursion consumes at
least the field separator, so the fuel `s.length + 1` supplied by the
caller is never exhausted. -/
def parseRecordAux : Nat → GoStr → Except CsvErr (List GoStr × Option GoStr)
  | 0, _ => .error .fuel
  | fuel + 1, s =>
    match parseField s with
    | .error e => .error e
    | .ok (f, .comma, rest) =>
      match parseRecordAux fuel rest with
      | .error e => .error e
      | .ok (fs, rem) => .ok (f :: fs, rem)
    | .ok (f, .nl, rest) => .ok ([f], some rest)
    | .ok (f, .eof, _) => .ok ([f], none)

/-- `csv.Reader.ReadAll` on normalised input: skip empty lines, stop at
EOF, parse records.  Every record consumes at least one character, so
the fuel supplied by `csvReadAll` is never exhausted. -/
def readAllAux : Nat → GoStr → Except CsvErr (List (List GoStr))
  | 0, _ => .error .fuel
  | fuel + 1, s =>
    let s2 := s.dropWhile (fun c => c == '\n')
    if s2.isEmpty then .ok []
    else
      match parseRecordAux (s2.length + 1) s2 with
      | .error e => .error e
      | .ok (fs, none) => .ok [fs]
      | .ok (fs, some rem) =>
        match readAllAux fuel rem with
        | .error e => .error e
        | .ok recs => .ok (fs :: recs)

/-- `csv.NewReader(strings.NewReader(s)).ReadAll()` with the default
configuration. -/
def csvReadAll (s : GoStr) : Except CsvErr (List (List GoStr)) :=
  readAllAux (s.length + 1) (csvPre s)

/-- `unicode.IsSpace`: the Unicode White_Space property, a fixed finite
set of code points. -/
def goIsSpace (c : Char) : Bool :=
  c ∈ ['\t', '\n', '\x0b', '\x0c', '\r', ' ', '\u0085', '\u00a0',
       '\u1680', '\u2000', '\u2001', '\u2002', '\u2003', '\u2004',
       '\u2005', '\u2006', '\u2007', '\u2008', '\u2009', '\u200a',
       '\u2028', '\u2029', '\u202f', '\u205f', '\u3000']

/-- `csv.Writer.fieldNeedsQuotes` with the default comma separator: not
the empty field; the PostgreSQL terminator `\.`; any field containing a
comma, quote, `\r` or `\n`; or a field starting with white space. -/
def fieldNeedsQuotes (f : GoStr) : Bool :=
  if f = [] then false
  else if f = gs "\\." then true
  else
    (f.contains ',' || f.contains '"' || f.contains '\r' || f.contains '\n') ||
      (match f.head? with
       | some c => goIsSpace c
       | none => false)

/-- Quoted-field escaping of `csv.Writer.Write` with `UseCRLF` unset:
a quote becomes `""`; `\r` and `\n` are written verbatim. -/
def escapeQ : GoStr → GoStr
  | [] => []
  | c :: s => if c = '"' then '"' :: '"' :: escapeQ s else c :: escapeQ s

/-- One written csv field. -/
def writeField (f : GoStr) : GoStr :=
  if fieldNeedsQuotes f then '"' :: (escapeQ f ++ ['"']) else f

/-- The field loop of `csv.Writer.Write`: fields joined by commas. -/
def writeRec : List GoStr → GoStr
  | [] => []
  | [f] => writeField f
  | f :: fs => writeField f ++ ',' :: writeRec fs

/-- `csv.Writer.Write(record)` with `UseCRLF` unset: the joined fields
plus the `\n` terminator. -/
def csvWriteRecord (fs : List GoStr) : GoStr := writeRec fs ++ ['\n']

/-- `strings.TrimSuffix(s, "\n")`. -/
def trimNl (s : GoStr) : GoStr :=
  if s.getLast? = some '\n' then s.dropLast else s

/-- A Go `map[string]string`, modelled as an association list with
unique keys. -/
abbrev GoMap := List (GoStr × GoStr)

/-- `m[k] = v`: replace the binding in place or append a fresh one. -/
def goInsert (m : GoMap) (k v : GoStr) : GoMap :=
  match m with
  | [] => [(k, v)]
  | (k2, v2) :: rest => if k2 = k then (k, v) :: rest else (k2, v2) :: goInsert rest k v

/-- Map lookup. -/
def lookupMap (m : GoMap) (k : GoStr) : Option GoStr :=
  (m.find? (fun p => p.1 == k)).map (·.2)

/-- The one error `MapVar.Set` produces (`getopt: malformed map value`),
covering both a csv read failure and a record count other than one. -/
inductive MvErr where
  | malformed (value : GoStr)
deriving DecidableEq, Repr

/-- `MapVar.Set(value)`: csv-read the text, require exactly one record,
then cut every field at its first `=` and insert the pair.  The map is
only mutated after both checks pass. -/
def mapVarSet (m : GoMap) (value : GoStr) : GoMap × Option MvErr :=
  match csvReadAll value with
  | .error _ => (m, some (.malformed value))
  | .ok pairs =>
    match pairs with
    | [rec] =>
      (rec.foldl (fun acc pair => goInsert acc (goCut '=' pair).1 (goCut '=' pair).2.1) m,
        none)
    | _ => (m, some (.malformed value))

/-- `MapVar.String()`: render the `k=v` entries, keys sorted, as one
csv record, without the trailing newline. -/
def mapVarString (m : GoMap) : GoStr :=
  let ks := sortStrs (m.map (·.1)).dedup
  let entries := ks.map (fun k => k ++ '=' :: ((lookupMap m k).getD []))
  trimNl (csvWriteRecord entries)

/-! ## Claim C6: malformed structured values -/

/-- C6 counterexample: `"a=b,"` contains a comma with no following key,
yet `Set` succeeds and mutates the map — it inserts `a=b` *and* an
entry with empty key and empty value — refuting both the error and the
no-mutation halves of the claim for this malformed class. -/
theorem claim_C6_counterexample :
    mapVarSet [] (gs "a=b,") = ([(gs "a", gs "b"), ([], [])], none) := by
  decide

/-- C6 amended: `Set` never partially mutates the map on error (the map
is only written after validation), and inputs with an unterminated
double quote or a bare double quote inside a key do fail with the
descriptive malformed-value error; but a comma with no following key is
*not* an error: the truncated entry is parsed as an empty field and
inserted as an empty key with empty value. -/
theorem claim_C6_amended :
    (∀ (m : GoMap) (v : GoStr), (mapVarSet m v).2.isSome → (mapVarSet m v).1 = m) ∧
    (∀ m : GoMap, (mapVarSet m (gs "\"a=b")).2.isSome = true) ∧
    (∀ m : GoMap, (mapVarSet m (gs "a\"b=c")).2.isSome = true) ∧
    (∀ m : GoMap,
      mapVarSet m (gs "a=b,") = (goInsert (goInsert m (gs "a") (gs "b")) [] [], none)) := by
  refine ⟨?_, fun m => rfl, fun m => rfl, fun m => rfl⟩
  intro m v h
  unfold mapVarSet at h ⊢
  split at h
  · rfl
  · split at h
    · simp at h
    · rfl

/-- Witness for the amended C6: the unterminated quote `"a=b` leaves a
one-entry map untouched. -/
theorem claim_C6_amended_witness :
    (mapVarSet [(gs "x", gs "y")] (gs "\"a=b")).1 = [(gs "x", gs "y")] :=
  claim_C6_amended.1 [(gs "x", gs "y")] (gs "\"a=b") (by decide)

/-! ## Claim C7: round-tripping structured values -/

/-- C7 counterexample: the value text `"k=b<CR><CR><LF>"` parses
successfully to the map `{k ↦ "b\r\n"}`, but rendering that map and
re-parsing yields `{k ↦ "b\n"}` — the csv reader folds the `\r\n`
written verbatim by the csv writer — so the round trip does not
reproduce the same key/value set. -/
theorem claim_C7_counterexample :
    mapVarSet [] (gs "\"k=b\r\r\n\"") = ([(gs "k", gs "b\r\n")], none) ∧
    mapVarSet [] (mapVarString [(gs "k", gs "b\r\n")]) = ([(gs "k", gs "b\n")], none) ∧
    lookupMap [(gs "k", gs "b\n")] (gs "k") ≠ lookupMap [(gs "k", gs "b\r\n")] (gs "k") := by
  refine ⟨by decide, by decide, by decide⟩

/-! ### Reading back a written record

The following lemmas show that the csv scanner is a left inverse of the
csv writer on any record of `\r\n`-free, nonempty fields — the heart of
the amended round-trip claim. -/

/-- A list that does not contain a character has no occurrence of it. -/
theorem contains_false {l : GoStr} {a : Char} (h : l.contains a = false) :
    ∀ c ∈ l, c ≠ a := by
  induction l with
  | nil => intro c hc; cases hc
  | cons x xs ih =>
    intro c hc
    simp only [List.contains_cons, Bool.or_eq_false_iff] at h
    rcases List.mem_cons.mp hc with heq | hmem
    · subst heq
      intro hca
      subst hca
      simp at h
    · exact ih h.2 c hmem

/-- Unfolding: an unquoted scan over a content character. -/
theorem scanUnquoted_cons {c : Char} (h1 : ¬(c = ',')) (h2 : ¬(c = '\n')) (s : GoStr) :
    scanUnquoted (c :: s) =
      (c :: (scanUnquoted s).1, (scanUnquoted s).2.1, (scanUnquoted s).2.2) := by
  simp only [scanUnquoted, if_neg h1, if_neg h2]

/-- An unquoted scan passes over separator-free content. -/
theorem scanUnquoted_clean (f : GoStr) (hf : ∀ c ∈ f, ¬(c = ',') ∧ ¬(c = '\n'))
    (r : GoStr) :
    scanUnquoted (f ++ r) =
      (f ++ (scanUnquoted r).1, (scanUnquoted r).2.1, (scanUnquoted r).2.2) := by
  induction f with
  | nil => simp
  | cons c f ih =>
    have hc := hf c (by simp)
    rw [List.cons_append, scanUnquoted_cons hc.1 hc.2,
      ih (fun x hx => hf x (by simp [hx]))]
    simp

/-- Unfolding: a closing quote at end of input ends the field. -/
theorem scanQuoted_quote_nil : scanQuoted ['"'] = .ok ([], .eof, []) := rfl

/-- Unfolding: a closing quote before a comma ends the field. -/
theorem scanQuoted_quote_comma (r : GoStr) :
    scanQuoted ('"' :: ',' :: r) = .ok ([], .comma, r) := rfl

/-- Unfolding: a doubled quote contributes one literal quote. -/
theorem scanQuoted_quote_quote (r : GoStr) :
    scanQuoted ('"' :: '"' :: r) =
      (scanQuoted r).map (fun p => ('"' :: p.1, p.2.1, p.2.2)) := rfl

/-- Unfolding: a quoted scan over a content character. -/
theorem scanQuoted_cons_other {c : Char} (hc : ¬(c = '"')) (s : GoStr) :
    scanQuoted (c :: s) = (scanQuoted s).map (fun p => (c :: p.1, p.2.1, p.2.2)) := by
  rw [scanQuoted.eq_def]
  simp [hc]

/-- A quoted scan undoes the writer's escaping up to a closing quote
followed by a comma. -/
theorem scanQuoted_escape_comma (f r : GoStr) :
    scanQuoted (escapeQ f ++ '"' :: ',' :: r) = .ok (f, .comma, r) := by
  induction f with
  | nil => simp [escapeQ, scanQuoted_quote_comma]
  | cons c f ih =>
    by_cases hc : c = '"'
    · subst hc
      have he : escapeQ ('"' :: f) ++ '"' :: ',' :: r
          = '"' :: '"' :: (escapeQ f ++ '"' :: ',' :: r) := by
        simp [escapeQ]
      rw [he, scanQuoted_quote_quote]
      simp [ih, Except.map]
    · have he : escapeQ (c :: f) ++ '"' :: ',' :: r
          = c :: (escapeQ f ++ '"' :: ',' :: r) := by
        simp [escapeQ, hc]
      rw [he, scanQuoted_cons_other hc, ih]
      rfl

/-- A quoted scan undoes the writer's escaping up to a closing quote at
EOF. -/
theorem scanQuoted_escape_eof (f : GoStr) :
    scanQuoted (escapeQ f ++ ['"']) = .ok (f, .eof, []) := by
  induction f with
  | nil => simp [escapeQ, scanQuoted_quote_nil]
  | cons c f ih =>
    by_cases hc : c = '"'
    · subst hc
      have he : escapeQ ('"' :: f) ++ ['"'] = '"' :: '"' :: (escapeQ f ++ ['"']) := by
        simp [escapeQ]
      rw [he, scanQuoted_quote_quote]
      simp [ih, Except.map]
    · have he : escapeQ (c :: f) ++ ['"'] = c :: (escapeQ f ++ ['"']) := by
        simp [escapeQ, hc]
      rw [he, scanQuoted_cons_other hc, ih]
      rfl

/-- A field that needs no quotes contains no comma, quote, `\r` or
`\n`. -/
theorem unquoted_clean {f : GoStr} (h : fieldNeedsQuotes f = false) :
    f.contains ',' = false ∧ f.contains '"' = false ∧
      f.contains '\r' = false ∧ f.contains '\n' = false := by
  unfold fieldNeedsQuotes at h
  split at h
  · rename_i hf
    subst hf
    simp
  · split at h
    · cases h
    · simp only [Bool.or_eq_false_iff] at h
      exact ⟨h.1.1.1.1, h.1.1.1.2, h.1.1.2, h.1.2⟩

/-- Reading one written field followed by a comma yields the field. -/
theorem parseField_write_comma (f r : GoStr) :
    parseField (writeField f ++ ',' :: r) = .ok (f, .comma, r) := by
  unfold writeField
  split
  · have he : ('"' :: (escapeQ f ++ ['"'])) ++ ',' :: r
        = '"' :: (escapeQ f ++ '"' :: ',' :: r) := by
      simp
    rw [he]
    simp only [parseField, if_pos rfl]
    exact scanQuoted_escape_comma f r
  · rename_i hq
    have hq2 : fieldNeedsQuotes f = false := by
      simpa using hq
    obtain ⟨hc1, hc2, _, hc4⟩ := unquoted_clean hq2
    cases f with
    | nil =>
      simp only [List.nil_append, parseField]
      rw [if_neg (by decide : ¬(',' = '"'))]
      simp [scanUnquoted]
    | cons c f2 =>
      have hcq : ¬(c = '"') := contains_false hc2 c (by simp)
      have hclean : ∀ x ∈ c :: f2, ¬(x = ',') ∧ ¬(x = '\n') := fun x hx =>
        ⟨contains_false hc1 x hx, contains_false hc4 x hx⟩
      rw [List.cons_append]
      simp only [parseField, if_neg hcq]
      have hscan := scanUnquoted_clean (c :: f2) hclean (',' :: r)
      rw [List.cons_append] at hscan
      rw [hscan]
      simp [scanUnquoted, hc2]
      exact ⟨fun h => hcq h.symm, fun hm => contains_false hc2 '"' (List.mem_cons_of_mem c hm) rfl⟩

/-- Reading one written field at the end of the record yields the
field. -/
theorem parseField_write_eof (f : GoStr) :
    parseField (writeField f) = .ok (f, .eof, []) := by
  unfold writeField
  split
  · simp only [parseField, if_pos rfl]
    exact scanQuoted_escape_eof f
  · rename_i hq
    have hq2 : fieldNeedsQuotes f = false := by
      simpa using hq
    obtain ⟨hc1, hc2, _, hc4⟩ := unquoted_clean hq2
    cases f with
    | nil => simp [parseField]
    | cons c f2 =>
      have hcq : ¬(c = '"') := contains_false hc2 c (by simp)
      have hclean : ∀ x ∈ c :: f2, ¬(x = ',') ∧ ¬(x = '\n') := fun x hx =>
        ⟨contains_false hc1 x hx, contains_false hc4 x hx⟩
      simp only [parseField, if_neg hcq]
      have hscan := scanUnquoted_clean (c :: f2) hclean []
      rw [List.append_nil] at hscan
      rw [List.cons_append] at hscan
      rw [hscan]
      simp [scanUnquoted, hc2]
      exact ⟨fun h => hcq h.symm, fun hm => contains_false hc2 '"' (List.mem_cons_of_mem c hm) rfl⟩

/-- Reading back a whole written record recovers exactly its fields. -/
theorem parseRecord_write :
    ∀ (fs : List GoStr) (fuel : Nat), fs ≠ [] → fs.length ≤ fuel →
      parseRecordAux fuel (writeRec fs) = .ok (fs, none) := by
  intro fs
  induction fs with
  | nil => intro fuel h; exact absurd rfl h
  | cons f fs ih =>
    intro fuel _ hlen
    cases fs with
    | nil =>
      cases fuel with
      | zero => simp at hlen
      | succ n =>
        simp only [writeRec, parseRecordAux, parseField_write_eof]
    | cons f2 fs2 =>
      cases fuel with
      | zero => simp at hlen
      | succ n =>
        have hn : (f2 :: fs2).length ≤ n := by
          simp only [List.length_cons] at hlen ⊢
          omega
        simp only [writeRec, parseRecordAux, parseField_write_comma,
          ih n (by simp) hn]

/-! ### The written record survives the reader's line normalisation

A written record of `\r\n`-free fields contains no `\r\n` sequence, does
not end in `\r`, and does not begin with `\n`, so `csvPre` and the
empty-line skip leave it untouched. -/

/-- Unfolding of `hasCRLF` at a cons. -/
theorem hasCRLF_cons (c : Char) (s : GoStr) :
    hasCRLF (c :: s) = (((c == '\r') && (s.head? == some '\n')) || hasCRLF s) := rfl

/-- `\r\n`-freedom is preserved by append when no `\r\n` straddles the
seam. -/
theorem hasCRLF_append (b : GoStr) (h2 : hasCRLF b = false) :
    ∀ a : GoStr, hasCRLF a = false →
      (a.getLast? = some '\r' → ¬ b.head? = some '\n') →
      hasCRLF (a ++ b) = false := by
  intro a
  induction a with
  | nil => intro _ _; simpa using h2
  | cons c s ih =>
    intro h1 h3
    rw [hasCRLF_cons] at h1
    simp only [Bool.or_eq_false_iff] at h1
    cases s with
    | nil =>
      simp only [List.cons_append, List.nil_append, hasCRLF_cons,
        Bool.or_eq_false_iff]
      refine ⟨?_, h2⟩
      by_cases hc : c = '\r'
      · subst hc
        have hb : ¬ b.head? = some '\n' := h3 (by simp)
        simp [hb]
      · simp [hc]
    | cons c2 s2 =>
      have h3s : (c2 :: s2).getLast? = some '\r' → ¬ b.head? = some '\n' := by
        intro hg
        exact h3 (by rw [List.getLast?_cons_cons]; exact hg)
      rw [List.cons_append, hasCRLF_cons]
      simp only [Bool.or_eq_false_iff]
      refine ⟨?_, ih h1.2 h3s⟩
      simpa using h1.1

/-- Escaping quotes does not change whether the head is a newline. -/
theorem escapeQ_head_nl (s : GoStr) :
    (escapeQ s).head? = some '\n' ↔ s.head? = some '\n' := by
  cases s with
  | nil => simp [escapeQ]
  | cons c s =>
    by_cases hc : c = '"'
    · subst hc
      simp [escapeQ]
    · simp [escapeQ, hc]

/-- Unfolding of `escapeQ` at a quote. -/
theorem escapeQ_cons_quote (s : GoStr) :
    escapeQ ('"' :: s) = '"' :: '"' :: escapeQ s := by
  simp [escapeQ]

/-- Escaping quotes preserves `\r\n`-freedom. -/
theorem escapeQ_crlf : ∀ s : GoStr, hasCRLF s = false → hasCRLF (escapeQ s) = false
  | [], _ => rfl
  | c :: s, h => by
    rw [hasCRLF_cons] at h
    simp only [Bool.or_eq_false_iff] at h
    by_cases hc : c = '"'
    · subst hc
      rw [escapeQ_cons_quote, hasCRLF_cons, hasCRLF_cons]
      simp only [Bool.or_eq_false_iff]
      refine ⟨by simp, by simp, escapeQ_crlf s h.2⟩
    · simp only [escapeQ, if_neg hc, hasCRLF_cons, Bool.or_eq_false_iff]
      refine ⟨?_, escapeQ_crlf s h.2⟩
      by_cases hr : c = '\r'
      · subst hr
        have hs : ¬ s.head? = some '\n' := by simpa using h.1
        have he : ¬ (escapeQ s).head? = some '\n' :=
          fun hh => hs ((escapeQ_head_nl s).mp hh)
        simp [he]
      · simp [hr]

/-- A written field never begins with a newline. -/
theorem writeField_head_not_nl (f : GoStr) : ¬ (writeField f).head? = some '\n' := by
  unfold writeField
  split
  · simp
  · rename_i hq
    have hq2 : fieldNeedsQuotes f = false := by simpa using hq
    obtain ⟨_, _, _, hc4⟩ := unquoted_clean hq2
    cases f with
    | nil => simp
    | cons c f2 =>
      intro hh
      simp only [List.head?_cons, Option.some.injEq] at hh
      subst hh
      simp at hc4

/-- A written field never ends with a carriage return. -/
theorem writeField_last_not_cr (f : GoStr) : ¬ (writeField f).getLast? = some '\r' := by
  unfold writeField
  split
  · have he : '"' :: (escapeQ f ++ ['"']) = ('"' :: escapeQ f) ++ ['"'] := by simp
    rw [he, List.getLast?_concat]
    simp
  · rename_i hq
    have hq2 : fieldNeedsQuotes f = false := by simpa using hq
    obtain ⟨_, _, hc3, _⟩ := unquoted_clean hq2
    intro hl
    have hm : '\r' ∈ f := by
      obtain ⟨hne, heq⟩ := List.mem_getLast?_eq_getLast (show '\r' ∈ _ from hl)
      rw [heq]
      exact List.getLast_mem hne
    exact contains_false hc3 '\r' hm rfl

/-- Writing a `\r\n`-free field yields a `\r\n`-free string. -/
theorem writeField_crlf (f : GoStr) (h : hasCRLF f = false) :
    hasCRLF (writeField f) = false := by
  unfold writeField
  split
  · rw [hasCRLF_cons]
    simp only [Bool.or_eq_false_iff]
    refine ⟨by simp, ?_⟩
    exact hasCRLF_append ['"'] rfl (escapeQ f) (escapeQ_crlf f h) (fun _ => by simp)
  · exact h

/-- A written field of a nonempty field is nonempty. -/
theorem writeField_ne_nil (f : GoStr) (h : ¬ f = []) : ¬ writeField f = [] := by
  unfold writeField
  split
  · simp
  · exact h

/-- A written record of `\r\n`-free fields is `\r\n`-free. -/
theorem writeRec_crlf : ∀ fs : List GoStr,
    (∀ f ∈ fs, hasCRLF f = false) → hasCRLF (writeRec fs) = false
  | [], _ => rfl
  | [f], h => by
    simp only [writeRec]
    exact writeField_crlf f (h f (by simp))
  | f :: f2 :: fs, h => by
    simp only [writeRec]
    refine hasCRLF_append (',' :: writeRec (f2 :: fs)) ?_ (writeField f)
      (writeField_crlf f (h f (by simp))) (fun _ => by simp)
    rw [hasCRLF_cons]
    simp only [Bool.or_eq_false_iff]
    exact ⟨by simp, writeRec_crlf (f2 :: fs) (fun g hg => h g (by simp [hg]))⟩

/-- A written record never begins with a newline. -/
theorem writeRec_head_not_nl : ∀ fs : List GoStr, ¬ (writeRec fs).head? = some '\n'
  | [] => by simp [writeRec]
  | [f] => by
    simp only [writeRec]
    exact writeField_head_not_nl f
  | f :: f2 :: fs => by
    simp only [writeRec]
    cases hw : writeField f with
    | nil => simp
    | cons c cs =>
      intro hh
      simp only [List.cons_append, List.head?_cons, Option.some.injEq] at hh
      subst hh
      exact writeField_head_not_nl f (by rw [hw]; rfl)

/-- A written record never ends with a carriage return. -/
theorem writeRec_last_not_cr : ∀ fs : List GoStr, ¬ (writeRec fs).getLast? = some '\r'
  | [] => by simp [writeRec]
  | [f] => by
    simp only [writeRec]
    exact writeField_last_not_cr f
  | f :: f2 :: fs => by
    simp only [writeRec]
    rw [List.getLast?_append]
    cases hw : writeRec (f2 :: fs) with
    | nil => simp
    | cons c cs =>
      have h2 := writeRec_last_not_cr (f2 :: fs)
      rw [hw] at h2
      rw [List.getLast?_cons_cons]
      cases hg : (c :: cs).getLast? with
      | none => simp at hg
      | some x =>
        rw [hg] at h2
        simpa using h2

/-- A written record of nonempty fields is nonempty. -/
theorem writeRec_ne_nil : ∀ fs : List GoStr, ¬ fs = [] → (∀ f ∈ fs, ¬ f = []) →
    ¬ writeRec fs = []
  | [], h, _ => absurd rfl h
  | [f], _, h => by
    simp only [writeRec]
    exact writeField_ne_nil f (h f (by simp))
  | _ :: _ :: _, _, _ => by
    simp only [writeRec]
    simp

/-- A record has at most one field more than the written characters. -/
theorem writeRec_len : ∀ fs : List GoStr, fs.length ≤ (writeRec fs).length + 1
  | [] => by simp [writeRec]
  | [f] => by simp [writeRec]
  | f :: f2 :: fs => by
    have ih := writeRec_len (f2 :: fs)
    simp only [writeRec, List.length_append, List.length_cons] at *
    omega

/-- `readLine` normalisation is the identity on `\r\n`-free input. -/
theorem normCRLF_id : ∀ s : GoStr, hasCRLF s = false → normCRLF s = s
  | [], _ => rfl
  | c :: s, h => by
    rw [hasCRLF_cons] at h
    simp only [Bool.or_eq_false_iff] at h
    have hcond : ¬ ((c = '\r') ∧ s.head? = some '\n') := by
      intro hand
      have := h.1
      simp [hand.1, hand.2] at this
    simp only [normCRLF]
    rw [if_neg (by simp only [Bool.and_eq_true, decide_eq_true_eq]; exact hcond)]
    rw [normCRLF_id s h.2]

/-- Dropping a trailing `\r` is the identity when the string does not
end in `\r`. -/
theorem dropTrailingCR_id (s : GoStr) (h : ¬ s.getLast? = some '\r') :
    dropTrailingCR s = s := by
  unfold dropTrailingCR
  rw [if_neg h]

/-- Trimming the newline terminator undoes appending it. -/
theorem trimNl_concat (a : GoStr) : trimNl (a ++ ['\n']) = a := by
  unfold trimNl
  rw [List.getLast?_concat, if_pos rfl, List.dropLast_concat]

/-- Reading a written-and-trimmed record of nonempty `\r\n`-free fields
recovers exactly that record. -/
theorem readAll_write (entries : List GoStr) (h0 : ¬ entries = [])
    (h1 : ∀ f ∈ entries, ¬ f = []) (h2 : ∀ f ∈ entries, hasCRLF f = false) :
    csvReadAll (trimNl (csvWriteRecord entries)) = .ok [entries] := by
  unfold csvWriteRecord
  rw [trimNl_concat]
  unfold csvReadAll csvPre
  rw [normCRLF_id _ (writeRec_crlf entries h2),
    dropTrailingCR_id _ (writeRec_last_not_cr entries)]
  cases hw : writeRec entries with
  | nil => exact absurd hw (writeRec_ne_nil entries h0 h1)
  | cons c cs =>
    have hcnl : ¬ c = '\n' := by
      have hh := writeRec_head_not_nl entries
      rw [hw] at hh
      simpa using hh
    have hb : entries.length ≤ (c :: cs).length + 1 := by
      have hl := writeRec_len entries
      rw [hw] at hl
      omega
    have hp := parseRecord_write entries ((c :: cs).length + 1) h0 hb
    rw [hw] at hp
    have hdw : (c :: cs).dropWhile (fun x => x == '\n') = c :: cs := by
      rw [List.dropWhile_cons, if_neg (by simp [hcnl])]
    simp only [readAllAux, hdw, List.isEmpty_cons, Bool.false_eq_true, if_false, hp]

/-! ### The map layer of the round trip

`String()` renders the entries `k=v` for the sorted, deduplicated keys;
`Set` cuts each field back at its first `=` and folds the pairs into the
target map with `goInsert`. -/

/-- `strings.Cut` recovers the two halves of `k=v` when the key itself
contains no `=`. -/
theorem goCut_clean : ∀ (k v : GoStr), (∀ c ∈ k, ¬ c = '=') →
    goCut '=' (k ++ '=' :: v) = (k, v, true)
  | [], v, _ => by simp [goCut]
  | c :: k, v, h => by
    have hc : ¬ c = '=' := h c (by simp)
    simp only [List.cons_append, goCut, if_neg hc]
    rw [List.append_eq, goCut_clean k v (fun x hx => h x (by simp [hx]))]

/-- Unfolding of map lookup at a cons. -/
theorem lookupMap_cons (k2 v2 : GoStr) (rest : GoMap) (k : GoStr) :
    lookupMap ((k2, v2) :: rest) k = if k2 = k then some v2 else lookupMap rest k := by
  unfold lookupMap
  by_cases h : k2 = k
  · rw [List.find?_cons_of_pos _ (by simp [h]), if_pos h]
    rfl
  · rw [List.find?_cons_of_neg _ (by simp [h]), if_neg h]

/-- Map lookup over an append tries the left map first. -/
theorem lookupMap_append : ∀ (a b : GoMap) (k : GoStr),
    lookupMap (a ++ b) k = (lookupMap a k).or (lookupMap b k)
  | [], b, k => by simp [lookupMap]
  | (k2, v2) :: rest, b, k => by
    rw [List.cons_append, lookupMap_cons, lookupMap_cons]
    by_cases h : k2 = k
    · rw [if_pos h, if_pos h]
      rfl
    · rw [if_neg h, if_neg h, lookupMap_append rest b k]

/-- Inserting a key absent from the map appends the binding. -/
theorem goInsert_fresh : ∀ (m : GoMap) (k v : GoStr), lookupMap m k = none →
    goInsert m k v = m ++ [(k, v)]
  | [], _, _, _ => rfl
  | (k2, v2) :: rest, k, v, h => by
    rw [lookupMap_cons] at h
    by_cases hk : k2 = k
    · rw [if_pos hk] at h
      simp at h
    · rw [if_neg hk] at h
      simp only [goInsert, if_neg hk]
      rw [goInsert_fresh rest k v h]
      rfl

/-- Lookup in the graph of a function over a key list. -/
theorem lookupMap_graph : ∀ (ks : List GoStr) (g : GoStr → GoStr) (k : GoStr),
    lookupMap (ks.map (fun x => (x, g x))) k = if k ∈ ks then some (g k) else none
  | [], g, k => by simp [lookupMap]
  | x :: ks, g, k => by
    rw [List.map_cons, lookupMap_cons]
    by_cases hx : x = k
    · subst hx
      simp
    · rw [if_neg hx, lookupMap_graph ks g k]
      by_cases hm : k ∈ ks
      · have h1 : k ∈ x :: ks := by simp [hm]
        rw [if_pos h1, if_pos hm]
      · have h1 : ¬ k ∈ x :: ks := by
          intro hh
          rcases List.mem_cons.mp hh with h1 | h1
          · exact hx h1.symm
          · exact hm h1
        rw [if_neg h1, if_neg hm]

/-- A lookup fails exactly when the key is absent. -/
theorem lookupMap_eq_none_iff : ∀ (m : GoMap) (k : GoStr),
    lookupMap m k = none ↔ ¬ k ∈ m.map (fun p => p.1)
  | [], k => by simp [lookupMap]
  | (k2, v2) :: rest, k => by
    rw [lookupMap_cons]
    by_cases h : k2 = k
    · subst h
      simp
    · rw [if_neg h, lookupMap_eq_none_iff rest k]
      simp only [List.map_cons, List.mem_cons]
      constructor
      · intro hn hh
        rcases hh with h1 | h1
        · exact h h1.symm
        · exact hn h1
      · intro hn h1
        exact hn (Or.inr h1)

/-- A successful lookup returns the value of a member binding. -/
theorem lookupMap_some_mem : ∀ {m : GoMap} {k v : GoStr},
    lookupMap m k = some v → (k, v) ∈ m := by
  intro m k v h
  unfold lookupMap at h
  cases hf : m.find? (fun p => p.1 == k) with
  | none =>
    rw [hf] at h
    simp at h
  | some pr =>
    rw [hf] at h
    have hm := List.mem_of_find?_eq_some hf
    have hp := List.find?_some hf
    obtain ⟨a, b⟩ := pr
    simp only [beq_iff_eq] at hp
    simp only [Option.map_some', Option.some.injEq] at h
    subst hp
    subst h
    exact hm

/-- Folding the written `k=v` entries of fresh distinct `=`-free keys
into a map appends exactly the corresponding bindings. -/
theorem foldl_entries : ∀ (ks : List GoStr) (g : GoStr → GoStr) (acc : GoMap),
    (∀ k ∈ ks, ∀ c ∈ k, ¬ c = '=') →
    ks.Nodup →
    (∀ k ∈ ks, lookupMap acc k = none) →
    (ks.map (fun k => k ++ '=' :: g k)).foldl
        (fun a pair => goInsert a (goCut '=' pair).1 (goCut '=' pair).2.1) acc
      = acc ++ ks.map (fun k => (k, g k))
  | [], _, acc, _, _, _ => by simp
  | k :: ks, g, acc, hk, hnd, hacc => by
    rw [List.map_cons, List.foldl_cons]
    have hcut := goCut_clean k (g k) (hk k (by simp))
    simp only [hcut]
    rw [goInsert_fresh acc k (g k) (hacc k (by simp))]
    have hacc2 : ∀ x ∈ ks, lookupMap (acc ++ [(k, g k)]) x = none := by
      intro x hx
      rw [lookupMap_append, hacc x (by simp [hx]), lookupMap_cons]
      have hne : ¬ k = x := by
        intro he
        subst he
        exact (List.nodup_cons.mp hnd).1 hx
      rw [if_neg hne]
      rfl
    rw [foldl_entries ks g (acc ++ [(k, g k)]) (fun x hx => hk x (by simp [hx]))
      (List.Nodup.of_cons hnd) hacc2]
    simp

/-- Inserting into a sorted list permutes consing on. -/
theorem insertStr_perm : ∀ (x : GoStr) (l : List GoStr),
    (insertStr x l).Perm (x :: l)
  | _, [] => List.Perm.refl _
  | x, y :: ys => by
    cases h : strLt x y with
    | true =>
      simp only [insertStr, h, if_true]
      exact List.Perm.refl _
    | false =>
      simp only [insertStr, h, Bool.false_eq_true, if_false]
      exact List.Perm.trans (List.Perm.cons y (insertStr_perm x ys))
        (List.Perm.swap x y ys)

/-- Sorting a list of names permutes it. -/
theorem sortStrs_perm : ∀ l : List GoStr, (sortStrs l).Perm l
  | [] => List.Perm.refl _
  | x :: l => by
    unfold sortStrs
    rw [List.foldr_cons]
    exact List.Perm.trans (insertStr_perm x (sortStrs l))
      (List.Perm.cons x (sortStrs_perm l))

/-- C7 amended: for every nonempty map whose keys contain no `=` and
whose keys and values contain no `\r\n` sequence, rendering with
`String()` and parsing the text with `Set` into a fresh empty map
succeeds and reproduces exactly the original key/value mapping (the
`\r\n` restriction is necessary: the reader folds `\r\n` to `\n` even
inside quoted fields, as the C7 counterexample shows). -/
theorem claim_C7_amended (m : GoMap)
    (h0 : ¬ m = [])
    (hkeq : ∀ p ∈ m, p.1.contains '=' = false)
    (hcr : ∀ p ∈ m, hasCRLF p.1 = false ∧ hasCRLF p.2 = false) :
    (mapVarSet [] (mapVarString m)).2 = none ∧
      ∀ k, lookupMap (mapVarSet [] (mapVarString m)).1 k = lookupMap m k := by
  have hmem : ∀ k, k ∈ sortStrs ((m.map (fun p => p.1)).dedup) ↔
      k ∈ m.map (fun p => p.1) := by
    intro k
    rw [List.Perm.mem_iff (sortStrs_perm _), List.mem_dedup]
  have hnd : (sortStrs ((m.map (fun p => p.1)).dedup)).Nodup :=
    (List.Perm.nodup_iff (sortStrs_perm _)).mpr (List.nodup_dedup _)
  have hkval : ∀ k ∈ sortStrs ((m.map (fun p => p.1)).dedup),
      ∃ v, lookupMap m k = some v ∧ (k, v) ∈ m := by
    intro k hk
    have hk2 : k ∈ m.map (fun p => p.1) := (hmem k).mp hk
    cases hl : lookupMap m k with
    | none => exact absurd hk2 ((lookupMap_eq_none_iff m k).mp hl)
    | some v => exact ⟨v, rfl, lookupMap_some_mem hl⟩
  have hstr : mapVarString m =
      trimNl (csvWriteRecord ((sortStrs ((m.map (fun p => p.1)).dedup)).map
        (fun k => k ++ '=' :: ((lookupMap m k).getD [])))) := rfl
  have hread : csvReadAll (trimNl (csvWriteRecord
        ((sortStrs ((m.map (fun p => p.1)).dedup)).map
          (fun k => k ++ '=' :: ((lookupMap m k).getD []))))) =
      .ok [(sortStrs ((m.map (fun p => p.1)).dedup)).map
        (fun k => k ++ '=' :: ((lookupMap m k).getD []))] := by
    apply readAll_write
    · obtain ⟨p, hp⟩ : ∃ p, p ∈ m := by
        cases m with
        | nil => exact absurd rfl h0
        | cons a l => exact ⟨a, by simp⟩
      have hpm : p.1 ∈ sortStrs ((m.map (fun q => q.1)).dedup) :=
        (hmem p.1).mpr (List.mem_map_of_mem _ hp)
      intro hh
      rw [List.map_eq_nil_iff] at hh
      rw [hh] at hpm
      cases hpm
    · intro f hf
      obtain ⟨k, hkmem, rfl⟩ := List.mem_map.mp hf
      simp
    · intro f hf
      obtain ⟨k, hkmem, rfl⟩ := List.mem_map.mp hf
      obtain ⟨v, hv, hvm⟩ := hkval k hkmem
      rw [hv]
      simp only [Option.getD_some]
      have hc2 := hcr (k, v) hvm
      refine hasCRLF_append ('=' :: v) ?_ k hc2.1 (fun _ => by simp)
      rw [hasCRLF_cons]
      simp only [Bool.or_eq_false_iff]
      exact ⟨by simp, hc2.2⟩
  have hkeys : ∀ k ∈ sortStrs ((m.map (fun p => p.1)).dedup), ∀ c ∈ k, ¬ c = '=' := by
    intro k hk c hc
    obtain ⟨v, _, hvm⟩ := hkval k hk
    exact contains_false (hkeq (k, v) hvm) c hc
  have hfold := foldl_entries (sortStrs ((m.map (fun p => p.1)).dedup))
    (fun k => (lookupMap m k).getD []) [] hkeys hnd (fun k _ => rfl)
  have hset : mapVarSet [] (mapVarString m) =
      ((sortStrs ((m.map (fun p => p.1)).dedup)).map
        (fun k => (k, (lookupMap m k).getD [])), none) := by
    unfold mapVarSet
    rw [hstr, hread]
    simpa using hfold
  refine ⟨by rw [hset], ?_⟩
  intro k
  rw [hset]
  have hg : lookupMap ((sortStrs ((m.map (fun p => p.1)).dedup)).map
      (fun x => (x, (lookupMap m x).getD []))) k
      = if k ∈ sortStrs ((m.map (fun p => p.1)).dedup)
        then some ((lookupMap m k).getD []) else none :=
    lookupMap_graph _ (fun x => (lookupMap m x).getD []) k
  rw [hg]
  by_cases hk : k ∈ sortStrs ((m.map (fun p => p.1)).dedup)
  · rw [if_pos hk]
    obtain ⟨v, hv, _⟩ := hkval k hk
    rw [hv]
    rfl
  · rw [if_neg hk]
    exact ((lookupMap_eq_none_iff m k).mpr (fun hh => hk ((hmem k).mpr hh))).symm

/-- C7 amended, instantiated: the one-entry map `a=b` survives the
round trip. -/
theorem claim_C7_amended_witness :
    (mapVarSet [] (mapVarString [(gs "a", gs "b")])).2 = none ∧
      lookupMap (mapVarSet [] (mapVarString [(gs "a", gs "b")])).1 (gs "a")
        = lookupMap [(gs "a", gs "b")] (gs "a") :=
  ⟨(claim_C7_amended [(gs "a", gs "b")] (by decide) (by decide) (by decide)).1,
    (claim_C7_amended [(gs "a", gs "b")] (by decide) (by decide)
      (by decide)).2 (gs "a")⟩

end Cmder
